import Mathlib

/-!
Verification development for the SkySheet minifier (src/minify_files.py).

The program is embedded shallowly:
* strings are `List Char` (Python `str` values), file contents are `List Nat`
  (byte sequences);
* the three regex substitutions and the strip of `minify_text` are embedded as
  one-pass character scanners with the same semantics as the Python regexes;
* `minify_json` is embedded through a model of the behaviour of Python's
  `json.loads` / `json.dumps(..., separators=(',', ':'))` library calls
  (recursive-descent parser and serializer over a JSON value type);
* the filesystem effects of `process_file` / `process_directory` are embedded
  as explicit state passing over an association-list filesystem.
-/

/-! ## Character classes used by the text minifier -/

/-- Code points matched by Python's `\s` for `str` patterns and stripped by
`str.strip()` (both use the same Unicode whitespace predicate). -/
def pySpaceCodes : List Nat :=
  [9, 10, 11, 12, 13, 28, 29, 30, 31, 32, 133, 160, 0x1680,
   0x2000, 0x2001, 0x2002, 0x2003, 0x2004, 0x2005, 0x2006, 0x2007,
   0x2008, 0x2009, 0x200A, 0x2028, 0x2029, 0x202F, 0x205F, 0x3000]

/-- Python whitespace test (`\s`, `str.isspace`, `str.strip`). -/
def isPySpace (c : Char) : Bool := pySpaceCodes.contains c.toNat

/-- The characters of the `[\r\n\t]+` class in the first substitution of
`minify_text` (src/minify_files.py line 88). -/
def isRNT (c : Char) : Bool := c == '\r' || c == '\n' || c == '\t'

/-- The punctuation class `[\{\}\[\]:,]` of the third substitution of
`minify_text` (src/minify_files.py line 92). -/
def isPunct (c : Char) : Bool :=
  c == '\x7b' || c == '\x7d' || c == '[' || c == ']' || c == ':' || c == ','

/-! ## The text minifier (src/minify_files.py lines 77-94) -/

/-- Scanner for `re.sub(r'[\r\n\t]+', ' ', content)`: every maximal run of
carriage returns, line feeds and tabs becomes a single space.  The flag
records whether the scanner is inside such a run. -/
def step1Aux : Bool → List Char → List Char
  | _, [] => []
  | inRun, c :: cs =>
    if isRNT c then
      if inRun then step1Aux true cs else ' ' :: step1Aux true cs
    else c :: step1Aux false cs

/-- `re.sub(r'[\r\n\t]+', ' ', content)` (src/minify_files.py line 88). -/
def step1 (l : List Char) : List Char := step1Aux false l

/-- Scanner for `re.sub(r' {2,}', ' ', content)`: every maximal run of spaces
becomes a single space (runs of length one are unchanged either way). -/
def step2Aux : Bool → List Char → List Char
  | _, [] => []
  | inRun, c :: cs =>
    if c == ' ' then
      if inRun then step2Aux true cs else ' ' :: step2Aux true cs
    else c :: step2Aux false cs

/-- `re.sub(r' {2,}', ' ', content)` (src/minify_files.py line 90). -/
def step2 (l : List Char) : List Char := step2Aux false l

/-- Scanner for `re.sub(r'\s*([\{\}\[\]:,])\s*', r'\1', content)`.

The regex scan finds, left to right, every maximal block of whitespace
possibly-followed-and-preceded punctuation: a match consumes the whitespace
run before a punctuation character, the character itself, and the greedy
whitespace run after it, and replaces the whole match by the punctuation
character alone.  Operationally: whitespace directly before a punctuation
character is dropped, whitespace directly after one is dropped, all other
characters are kept.  `afterP` records whether the last emitted
non-whitespace character was punctuation; `pend` holds (reversed) the
whitespace run whose fate is still undecided. -/
def step3Aux : Bool → List Char → List Char → List Char
  | afterP, pend, [] => if afterP then [] else pend.reverse
  | afterP, pend, c :: cs =>
    if isPySpace c then step3Aux afterP (c :: pend) cs
    else if isPunct c then c :: step3Aux true [] cs
    else if afterP then c :: step3Aux false [] cs
    else pend.reverse ++ c :: step3Aux false [] cs

/-- `re.sub(r'\s*([\{\}\[\]:,])\s*', r'\1', content)` (src/minify_files.py
line 92). -/
def step3 (l : List Char) : List Char := step3Aux false [] l

/-- Python `str.strip()`: drop leading and trailing whitespace. -/
def pyStrip (l : List Char) : List Char :=
  ((l.dropWhile isPySpace).reverse.dropWhile isPySpace).reverse

/-- `minify_text` (src/minify_files.py lines 77-94): the four transformation
steps applied in source order. -/
def minify_text (l : List Char) : List Char := pyStrip (step3 (step2 (step1 l)))

/-! ## Basic facts about the character classes -/

theorem punct_not_space {c : Char} (h : isPunct c = true) : isPySpace c = false := by
  simp only [isPunct, Bool.or_eq_true, beq_iff_eq] at h
  rcases h with ((((h | h) | h) | h) | h) | h <;> subst h <;> decide

theorem space_not_punct {c : Char} (h : isPySpace c = true) : isPunct c = false := by
  cases hp : isPunct c
  · rfl
  · exact absurd h (by simp [punct_not_space hp])

theorem isPySpace_space : isPySpace ' ' = true := by decide

theorem rnt_isPySpace {c : Char} (h : isRNT c = true) : isPySpace c = true := by
  simp only [isRNT, Bool.or_eq_true, beq_iff_eq] at h
  rcases h with (h | h) | h <;> subst h <;> decide

/-! ## C5: the text minifier is the described four-step composition -/

/-- C5: for every input string, `minify_text` equals the in-order composition
of (1) replacing maximal CR/LF/tab runs by one space, (2) collapsing runs of
two or more spaces, (3) removing whitespace adjacent to the punctuation
characters, (4) stripping the ends; on "Hello\n\n\tWorld   {foo}" it returns
"Hello World{foo}". -/
theorem minify_text_is_step_composition :
    (∀ s, minify_text s = pyStrip (step3 (step2 (step1 s)))) ∧
    minify_text ("Hello\n\n\tWorld   \x7bfoo\x7d".toList) =
      "Hello World\x7bfoo\x7d".toList :=
  ⟨fun _ => rfl, by decide⟩

/-! ## Idempotence machinery for the text minifier -/

/-- Adjacent-pair invariant left by `step2`: no two consecutive spaces. -/
def ndsRel (a b : Char) : Prop := ¬(a = ' ' ∧ b = ' ')

/-- Adjacent-pair invariant left by `step3`: no whitespace next to
punctuation, on either side. -/
def gspRel (a b : Char) : Prop :=
  ¬(isPySpace a = true ∧ isPunct b = true) ∧ ¬(isPunct a = true ∧ isPySpace b = true)


theorem mem_step1Aux {x : Char} : ∀ {b l}, x ∈ step1Aux b l → x = ' ' ∨ x ∈ l := by
  intro b l
  induction l generalizing b with
  | nil => simp [step1Aux]
  | cons c cs ih =>
    intro hx
    by_cases hc : isRNT c = true
    · cases b
      · simp only [step1Aux, hc, if_true, Bool.false_eq_true, if_false, List.mem_cons] at hx
        rcases hx with hx | hx
        · exact Or.inl hx
        · rcases ih hx with h | h
          · exact Or.inl h
          · exact Or.inr (List.mem_cons_of_mem _ h)
      · simp only [step1Aux, hc, if_true] at hx
        rcases ih hx with h | h
        · exact Or.inl h
        · exact Or.inr (List.mem_cons_of_mem _ h)
    · simp only [step1Aux, hc, Bool.false_eq_true, if_false, List.mem_cons] at hx
      rcases hx with hx | hx
      · exact Or.inr (hx ▸ List.mem_cons_self _ _)
      · rcases ih hx with h | h
        · exact Or.inl h
        · exact Or.inr (List.mem_cons_of_mem _ h)

theorem step1Aux_noRNT : ∀ b l, ∀ c ∈ step1Aux b l, isRNT c = false := by
  intro b l
  induction l generalizing b with
  | nil => simp [step1Aux]
  | cons c cs ih =>
    intro x hx
    by_cases hc : isRNT c = true
    · cases b
      · simp only [step1Aux, hc, if_true, Bool.false_eq_true, if_false, List.mem_cons] at hx
        rcases hx with hx | hx
        · subst hx; decide
        · exact ih true x hx
      · simp only [step1Aux, hc, if_true] at hx
        exact ih true x hx
    · simp only [step1Aux, hc, Bool.false_eq_true, if_false, List.mem_cons] at hx
      rcases hx with hx | hx
      · subst hx; simpa using hc
      · exact ih false x hx

theorem step1Aux_id : ∀ b l, (∀ c ∈ l, isRNT c = false) → step1Aux b l = l := by
  intro b l
  induction l generalizing b with
  | nil => intro _; rfl
  | cons c cs ih =>
    intro h
    have hc : isRNT c = false := h c (List.mem_cons_self _ _)
    simp only [step1Aux, hc, Bool.false_eq_true, if_false]
    exact congrArg (c :: ·) (ih false fun x hx => h x (List.mem_cons_of_mem _ hx))

theorem mem_step2Aux {x : Char} : ∀ {b l}, x ∈ step2Aux b l → x ∈ l := by
  intro b l
  induction l generalizing b with
  | nil => simp [step2Aux]
  | cons c cs ih =>
    intro hx
    by_cases hc : c = ' '
    · subst hc
      cases b
      · simp only [step2Aux, beq_self_eq_true, if_true, Bool.false_eq_true, if_false,
          List.mem_cons] at hx
        rcases hx with hx | hx
        · exact hx ▸ List.mem_cons_self _ _
        · exact List.mem_cons_of_mem _ (ih hx)
      · simp only [step2Aux, beq_self_eq_true, if_true] at hx
        exact List.mem_cons_of_mem _ (ih hx)
    · have hcb : (c == ' ') = false := by simpa [beq_iff_eq] using hc
      simp only [step2Aux, hcb, Bool.false_eq_true, if_false, List.mem_cons] at hx
      rcases hx with hx | hx
      · exact hx ▸ List.mem_cons_self _ _
      · exact List.mem_cons_of_mem _ (ih hx)

theorem step2Aux_true_head :
    ∀ l, ∀ y, (step2Aux true l).head? = some y → y ≠ ' ' := by
  intro l
  induction l with
  | nil => intro y hy; simp [step2Aux] at hy
  | cons c cs ih =>
    intro y hy
    by_cases hc : c = ' '
    · subst hc
      simp only [step2Aux, beq_self_eq_true, if_true] at hy
      exact ih y hy
    · have hcb : (c == ' ') = false := by simpa [beq_iff_eq] using hc
      simp only [step2Aux, hcb, Bool.false_eq_true, if_false, List.head?_cons,
        Option.some.injEq] at hy
      exact hy ▸ hc

theorem step2Aux_nds : ∀ b l, List.Chain' ndsRel (step2Aux b l) := by
  intro b l
  induction l generalizing b with
  | nil => simp [step2Aux]
  | cons c cs ih =>
    by_cases hc : c = ' '
    · subst hc
      cases b
      · simp only [step2Aux, beq_self_eq_true, if_true, Bool.false_eq_true, if_false]
        refine List.chain'_cons'.mpr ⟨?_, ih true⟩
        intro y hy
        exact fun hcontra => step2Aux_true_head cs y hy hcontra.2
      · simp only [step2Aux, beq_self_eq_true, if_true]
        exact ih true
    · have hcb : (c == ' ') = false := by simpa [beq_iff_eq] using hc
      simp only [step2Aux, hcb, Bool.false_eq_true, if_false]
      refine List.chain'_cons'.mpr ⟨?_, ih false⟩
      intro y _
      exact fun hcontra => hc hcontra.1

theorem step2Aux_true_eq_false :
    ∀ l, (∀ y, l.head? = some y → y ≠ ' ') → step2Aux true l = step2Aux false l := by
  intro l h
  cases l with
  | nil => rfl
  | cons c cs =>
    have hc : c ≠ ' ' := h c rfl
    have hcb : (c == ' ') = false := by simpa [beq_iff_eq] using hc
    simp [step2Aux, hcb]

theorem step2Aux_id : ∀ l, List.Chain' ndsRel l → step2Aux false l = l := by
  intro l
  induction l with
  | nil => intro _; rfl
  | cons c cs ih =>
    intro h
    have htail : List.Chain' ndsRel cs := (List.chain'_cons'.mp h).2
    by_cases hc : c = ' '
    · subst hc
      simp only [step2Aux, beq_self_eq_true, if_true, Bool.false_eq_true, if_false]
      have hhead : ∀ y, cs.head? = some y → y ≠ ' ' := by
        intro y hy hy'
        exact (List.chain'_cons'.mp h).1 y hy ⟨rfl, hy'⟩
      rw [step2Aux_true_eq_false cs hhead, ih htail]
    · have hcb : (c == ' ') = false := by simpa [beq_iff_eq] using hc
      simp only [step2Aux, hcb, Bool.false_eq_true, if_false]
      rw [ih htail]

theorem head?_mem {α : Type} {m : List α} {y : α} (h : m.head? = some y) : y ∈ m := by
  cases m with
  | nil => simp at h
  | cons c cs => simp only [List.head?_cons, Option.some.injEq] at h; exact h ▸ List.mem_cons_self _ _

theorem punct_ne_space {c : Char} (h : isPunct c = true) : c ≠ ' ' := by
  intro hc
  subst hc
  exact absurd h (by decide)

theorem not_space_ne_space {c : Char} (h : isPySpace c = false) : c ≠ ' ' := by
  intro hc
  subst hc
  exact absurd h (by decide)

theorem mem_step3Aux {x : Char} :
    ∀ {l a pend}, x ∈ step3Aux a pend l → x ∈ pend ∨ x ∈ l := by
  intro l
  induction l with
  | nil =>
    intro a pend hx
    cases a <;> simp only [step3Aux, if_true, Bool.false_eq_true, if_false] at hx
    · exact Or.inl (List.mem_reverse.mp hx)
    · simp at hx
  | cons c cs ih =>
    intro a pend hx
    by_cases hsp : isPySpace c = true
    · simp only [step3Aux, hsp, if_true] at hx
      rcases ih hx with h | h
      · rcases List.mem_cons.mp h with h | h
        · exact Or.inr (h ▸ List.mem_cons_self _ _)
        · exact Or.inl h
      · exact Or.inr (List.mem_cons_of_mem _ h)
    · by_cases hp : isPunct c = true
      · simp only [step3Aux, hsp, Bool.false_eq_true, if_false, hp, if_true,
          List.mem_cons] at hx
        rcases hx with hx | hx
        · exact Or.inr (hx ▸ List.mem_cons_self _ _)
        · rcases ih hx with h | h
          · simp at h
          · exact Or.inr (List.mem_cons_of_mem _ h)
      · cases a
        · simp only [step3Aux, hsp, Bool.false_eq_true, if_false, hp,
            List.mem_append, List.mem_cons] at hx
          rcases hx with hx | hx | hx
          · exact Or.inl (List.mem_reverse.mp hx)
          · exact Or.inr (hx ▸ List.mem_cons_self _ _)
          · rcases ih hx with h | h
            · simp at h
            · exact Or.inr (List.mem_cons_of_mem _ h)
        · simp only [step3Aux, hsp, Bool.false_eq_true, if_false, hp, if_true,
            List.mem_cons] at hx
          rcases hx with hx | hx
          · exact Or.inr (hx ▸ List.mem_cons_self _ _)
          · rcases ih hx with h | h
            · simp at h
            · exact Or.inr (List.mem_cons_of_mem _ h)

theorem step3Aux_true_head :
    ∀ l pend y, (step3Aux true pend l).head? = some y → isPySpace y = false := by
  intro l
  induction l with
  | nil => intro pend y hy; simp [step3Aux] at hy
  | cons c cs ih =>
    intro pend y hy
    by_cases hsp : isPySpace c = true
    · simp only [step3Aux, hsp, if_true] at hy
      exact ih _ y hy
    · by_cases hp : isPunct c = true
      · simp only [step3Aux, hsp, Bool.false_eq_true, if_false, hp, if_true,
          List.head?_cons, Option.some.injEq] at hy
        exact hy ▸ punct_not_space hp
      · have hsp' : isPySpace c = false := by simpa using hsp
        simp only [step3Aux, hsp, Bool.false_eq_true, if_false, hp, if_true,
          List.head?_cons, Option.some.injEq] at hy
        exact hy ▸ hsp'

theorem allSpace_gsp :
    ∀ m : List Char, (∀ x ∈ m, isPySpace x = true) → List.Chain' gspRel m := by
  intro m
  induction m with
  | nil => intro _; simp
  | cons c cs ih =>
    intro h
    refine List.chain'_cons'.mpr ⟨?_, ih fun x hx => h x (List.mem_cons_of_mem _ hx)⟩
    intro y hy
    have hc : isPySpace c = true := h c (List.mem_cons_self _ _)
    have hys : isPySpace y = true :=
      h y (List.mem_cons_of_mem _ (head?_mem (Option.mem_def.mp hy)))
    exact ⟨fun hq => by simp [space_not_punct hys] at hq,
      fun hq => by simp [space_not_punct hc] at hq⟩

theorem step3Aux_gsp :
    ∀ l a pend, (∀ x ∈ pend, isPySpace x = true) →
      List.Chain' gspRel (step3Aux a pend l) := by
  intro l
  induction l with
  | nil =>
    intro a pend h
    cases a <;> simp only [step3Aux, if_true, Bool.false_eq_true, if_false]
    · exact allSpace_gsp _ fun x hx => h x (List.mem_reverse.mp hx)
    · simp
  | cons c cs ih =>
    intro a pend h
    by_cases hsp : isPySpace c = true
    · simp only [step3Aux, hsp, if_true]
      refine ih a (c :: pend) ?_
      intro x hx
      rcases List.mem_cons.mp hx with hx | hx
      · exact hx ▸ hsp
      · exact h x hx
    · by_cases hpu : isPunct c = true
      · simp only [step3Aux, hsp, Bool.false_eq_true, if_false, hpu, if_true]
        refine List.chain'_cons'.mpr ⟨?_, ih true [] (by simp)⟩
        intro y hy
        have hys : isPySpace y = false := step3Aux_true_head cs [] y (Option.mem_def.mp hy)
        exact ⟨fun hq => by simp [punct_not_space hpu] at hq,
          fun hq => by simp [hys] at hq⟩
      · cases a
        · simp only [step3Aux, hsp, Bool.false_eq_true, if_false, hpu]
          refine List.chain'_append.mpr ⟨allSpace_gsp _ fun x hx => h x (List.mem_reverse.mp hx),
            List.chain'_cons'.mpr ⟨?_, ih false [] (by simp)⟩, ?_⟩
          · intro y _
            exact ⟨fun hq => by simp [hsp] at hq, fun hq => by simp [hpu] at hq⟩
          · intro x hx y hy
            have hx' : pend.head? = some x := by
              rw [← List.getLast?_reverse]; exact Option.mem_def.mp hx
            have hxs : isPySpace x = true := h x (head?_mem hx')
            have hyc : c = y := by simpa using Option.mem_def.mp hy
            exact ⟨fun hq => by rw [← hyc] at hq; simp [hpu] at hq,
              fun hq => by simp [space_not_punct hxs] at hq⟩
        · simp only [step3Aux, hsp, Bool.false_eq_true, if_false, hpu, if_true]
          refine List.chain'_cons'.mpr ⟨?_, ih false [] (by simp)⟩
          intro y _
          exact ⟨fun hq => by simp [hsp] at hq, fun hq => by simp [hpu] at hq⟩

theorem step3Aux_nds :
    ∀ l a pend, List.Chain' ndsRel (pend.reverse ++ l) →
      List.Chain' ndsRel (step3Aux a pend l) := by
  intro l
  induction l with
  | nil =>
    intro a pend h
    cases a <;> simp only [step3Aux, if_true, Bool.false_eq_true, if_false]
    · simpa using h
    · simp
  | cons c cs ih =>
    intro a pend h
    have hcons : List.Chain' ndsRel (c :: cs) := (List.chain'_append.mp h).2.1
    have htail : List.Chain' ndsRel cs := hcons.tail
    by_cases hsp : isPySpace c = true
    · simp only [step3Aux, hsp, if_true]
      refine ih a (c :: pend) ?_
      rw [List.reverse_cons, List.append_assoc, List.singleton_append]
      exact h
    · by_cases hpu : isPunct c = true
      · simp only [step3Aux, hsp, Bool.false_eq_true, if_false, hpu, if_true]
        refine List.chain'_cons'.mpr ⟨?_, ih true [] (by simpa using htail)⟩
        intro y _
        exact fun hq => punct_ne_space hpu hq.1
      · have hne : c ≠ ' ' := not_space_ne_space (by simpa using hsp)
        cases a
        · simp only [step3Aux, hsp, Bool.false_eq_true, if_false, hpu]
          refine List.chain'_append.mpr ⟨(List.chain'_append.mp h).1,
            List.chain'_cons'.mpr ⟨?_, ih false [] (by simpa using htail)⟩, ?_⟩
          · intro y _
            exact fun hq => hne hq.1
          · intro x hx y hy
            have hyc : c = y := by simpa using Option.mem_def.mp hy
            refine fun hq => ?_
            exact hne (hyc ▸ hq.2)
        · simp only [step3Aux, hsp, Bool.false_eq_true, if_false, hpu, if_true]
          refine List.chain'_cons'.mpr ⟨?_, ih false [] (by simpa using htail)⟩
          intro y _
          exact fun hq => hne hq.1

theorem step3Aux_true_eq_false :
    ∀ l, (∀ y, l.head? = some y → isPySpace y = false) →
      step3Aux true [] l = step3Aux false [] l := by
  intro l h
  cases l with
  | nil => rfl
  | cons c cs =>
    have hsp : isPySpace c = false := h c rfl
    by_cases hpu : isPunct c = true
    · simp [step3Aux, hsp, hpu]
    · simp [step3Aux, hsp, hpu]

theorem step3Aux_id :
    ∀ l pend, (∀ x ∈ pend, isPySpace x = true) →
      List.Chain' gspRel (pend.reverse ++ l) →
      step3Aux false pend l = pend.reverse ++ l := by
  intro l
  induction l with
  | nil =>
    intro pend _ _
    simp [step3Aux]
  | cons c cs ih =>
    intro pend hpend h
    have hcons : List.Chain' gspRel (c :: cs) := (List.chain'_append.mp h).2.1
    have htail : List.Chain' gspRel cs := hcons.tail
    by_cases hsp : isPySpace c = true
    · simp only [step3Aux, hsp, if_true]
      have : step3Aux false (c :: pend) cs = (c :: pend).reverse ++ cs := by
        refine ih (c :: pend) ?_ ?_
        · intro x hx
          rcases List.mem_cons.mp hx with hx | hx
          · exact hx ▸ hsp
          · exact hpend x hx
        · rw [List.reverse_cons, List.append_assoc, List.singleton_append]
          exact h
      rw [this, List.reverse_cons, List.append_assoc, List.singleton_append]
    · by_cases hpu : isPunct c = true
      · have hpn : pend = [] := by
          cases pend with
          | nil => rfl
          | cons x p' =>
            exfalso
            have hj := (List.chain'_append.mp h).2.2
            have hlast : (x :: p').reverse.getLast? = some x := by
              rw [List.getLast?_reverse]; rfl
            have := hj x (Option.mem_def.mpr hlast) c (Option.mem_def.mpr rfl)
            exact this.1 ⟨hpend x (List.mem_cons_self _ _), hpu⟩
        subst hpn
        simp only [step3Aux, hsp, Bool.false_eq_true, if_false, hpu, if_true,
          List.reverse_nil, List.nil_append]
        have hhead : ∀ y, cs.head? = some y → isPySpace y = false := by
          intro y hy
          have hj := (List.chain'_cons'.mp (by simpa using h)).1 y (Option.mem_def.mpr hy)
          by_contra hys
          exact hj.2 ⟨hpu, by simpa using hys⟩
        rw [step3Aux_true_eq_false cs hhead]
        have := ih [] (by simp) (by simpa using htail)
        simp only [List.reverse_nil, List.nil_append] at this
        rw [this]
      · simp only [step3Aux, hsp, Bool.false_eq_true, if_false, hpu]
        have := ih [] (by simp) (by simpa using htail)
        simp only [List.reverse_nil, List.nil_append] at this
        rw [this]

theorem mem_dropWhile {α : Type} {p : α → Bool} :
    ∀ {l : List α} {x}, x ∈ l.dropWhile p → x ∈ l := by
  intro l
  induction l with
  | nil => simp
  | cons c cs ih =>
    intro x hx
    rw [List.dropWhile_cons] at hx
    by_cases hc : p c = true
    · simp only [hc, if_true] at hx
      exact List.mem_cons_of_mem _ (ih hx)
    · simp only [hc, Bool.false_eq_true, if_false] at hx
      exact hx

theorem head_dropWhile {α : Type} {p : α → Bool} :
    ∀ {l : List α} {y}, (l.dropWhile p).head? = some y → p y = false := by
  intro l
  induction l with
  | nil => intro y hy; simp at hy
  | cons c cs ih =>
    intro y hy
    rw [List.dropWhile_cons] at hy
    by_cases hc : p c = true
    · simp only [hc, if_true] at hy
      exact ih hy
    · simp only [hc, Bool.false_eq_true, if_false, List.head?_cons, Option.some.injEq] at hy
      simpa [← hy] using hc

theorem chain'_dropWhile {α : Type} {R : α → α → Prop} {p : α → Bool} :
    ∀ {l : List α}, List.Chain' R l → List.Chain' R (l.dropWhile p) := by
  intro l
  induction l with
  | nil => simp
  | cons c cs ih =>
    intro h
    rw [List.dropWhile_cons]
    by_cases hc : p c = true
    · simp only [hc, if_true]
      exact ih h.tail
    · simp only [hc, Bool.false_eq_true, if_false]
      exact h

theorem getLast_dropWhile {α : Type} {p : α → Bool} :
    ∀ {l : List α}, l.dropWhile p ≠ [] → (l.dropWhile p).getLast? = l.getLast? := by
  intro l
  induction l with
  | nil => intro h; simp at h
  | cons c cs ih =>
    intro h
    rw [List.dropWhile_cons] at h ⊢
    by_cases hc : p c = true
    · simp only [hc, if_true] at h ⊢
      have hcs : cs ≠ [] := by
        intro hn
        subst hn
        simp [List.dropWhile] at h
      rw [ih h]
      cases cs with
      | nil => exact absurd rfl hcs
      | cons d ds => simp [List.getLast?_cons_cons]
    · simp only [hc, Bool.false_eq_true, if_false] at h ⊢

theorem dropWhile_eq_self {α : Type} {p : α → Bool} :
    ∀ {l : List α}, (∀ y, l.head? = some y → p y = false) → l.dropWhile p = l := by
  intro l h
  cases l with
  | nil => rfl
  | cons c cs =>
    have := h c rfl
    simp [List.dropWhile_cons, this]

theorem mem_pyStrip {x : Char} {l : List Char} (hx : x ∈ pyStrip l) : x ∈ l := by
  unfold pyStrip at hx
  rw [List.mem_reverse] at hx
  have := mem_dropWhile hx
  rw [List.mem_reverse] at this
  exact mem_dropWhile this

theorem chain'_pyStrip {R : Char → Char → Prop} {l : List Char}
    (h : List.Chain' R l) : List.Chain' R (pyStrip l) := by
  unfold pyStrip
  have h1 : List.Chain' R (l.dropWhile isPySpace) := chain'_dropWhile h
  have h2 : List.Chain' (flip R) (l.dropWhile isPySpace).reverse := by
    rw [List.chain'_reverse]
    exact h1
  have h3 : List.Chain' (flip R) ((l.dropWhile isPySpace).reverse.dropWhile isPySpace) :=
    chain'_dropWhile h2
  rw [List.chain'_reverse]
  exact h3

theorem pyStrip_head {l : List Char} :
    ∀ y, (pyStrip l).head? = some y → isPySpace y = false := by
  intro y hy
  unfold pyStrip at hy
  rw [List.head?_reverse] at hy
  have hne : (l.dropWhile isPySpace).reverse.dropWhile isPySpace ≠ [] := by
    intro hn
    rw [hn] at hy
    simp at hy
  rw [getLast_dropWhile hne, List.getLast?_reverse] at hy
  exact head_dropWhile hy

theorem pyStrip_last {l : List Char} :
    ∀ y, (pyStrip l).getLast? = some y → isPySpace y = false := by
  intro y hy
  unfold pyStrip at hy
  rw [List.getLast?_reverse] at hy
  exact head_dropWhile hy

theorem pyStrip_id {l : List Char}
    (h1 : ∀ y, l.head? = some y → isPySpace y = false)
    (h2 : ∀ y, l.getLast? = some y → isPySpace y = false) : pyStrip l = l := by
  unfold pyStrip
  rw [dropWhile_eq_self h1]
  have : ∀ y, l.reverse.head? = some y → isPySpace y = false := by
    intro y hy
    rw [List.head?_reverse] at hy
    exact h2 y hy
  rw [dropWhile_eq_self this, List.reverse_reverse]

/-! ## C2: the text minifier is idempotent -/

/-- C2: applying `minify_text` twice gives the same result as applying it
once: the output of a first pass contains no CR/LF/tab, no double space, no
whitespace adjacent to punctuation and no whitespace at either end, so every
one of the four passes leaves it unchanged. -/
theorem minify_text_idempotent : ∀ s, minify_text (minify_text s) = minify_text s := by
  intro s
  have hA : ∀ c ∈ minify_text s, isRNT c = false := by
    intro c hc
    have h3 : c ∈ step3Aux false [] (step2 (step1 s)) := mem_pyStrip hc
    rcases mem_step3Aux h3 with h | h
    · simp at h
    · have h2 : c ∈ step2Aux false (step1 s) := h
      have h1 : c ∈ step1Aux false s := mem_step2Aux h2
      exact step1Aux_noRNT false s c h1
  have hB : List.Chain' ndsRel (minify_text s) := by
    refine chain'_pyStrip (step3Aux_nds _ false [] ?_)
    simpa using step2Aux_nds false (step1 s)
  have hC : List.Chain' gspRel (minify_text s) := by
    exact chain'_pyStrip (step3Aux_gsp _ false [] (by simp))
  show pyStrip (step3 (step2 (step1 (minify_text s)))) = minify_text s
  unfold step1 step2 step3
  rw [step1Aux_id false _ hA, step2Aux_id _ hB]
  have h3id := step3Aux_id (minify_text s) [] (by simp) (by simpa using hC)
  simp only [List.reverse_nil, List.nil_append] at h3id
  rw [h3id]
  exact pyStrip_id pyStrip_head pyStrip_last

/-! ## JSON model

`minify_json` (src/minify_files.py lines 59-75) delegates to Python's
`json.loads` and `json.dumps(json_data, separators=(',', ':'))`.  The
library behaviour is embedded below for the JSON fragment the tool's data
lives in: null, booleans, integer numbers, strings (with full escape and
surrogate handling of the C scanner, `ensure_ascii` output), arrays and
objects (`dict` semantics: first-occurrence position, last value for
duplicate keys, insertion order preserved).  Float literals and the
`NaN/Infinity` extensions are deliberately outside the model (floating
point); on them the model parser reports failure.

String values are `List Nat` of code points rather than `List Char`,
because a lone `\uDC00`-style escape makes Python produce a string holding
an unpaired surrogate, which `Char` cannot represent. -/

mutual
inductive JValue where
  | jnull : JValue
  | jbool : Bool → JValue
  | jnum : Int → JValue
  | jstr : List Nat → JValue
  | jarr : JArr → JValue
  | jobj : JObj → JValue
inductive JArr where
  | anil : JArr
  | acons : JValue → JArr → JArr
inductive JObj where
  | onil : JObj
  | ocons : List Nat → JValue → JObj → JObj
end

deriving instance DecidableEq for JValue
deriving instance DecidableEq for JArr
deriving instance DecidableEq for JObj

/-- Lowercase hex digit, as in Python's `'\\u%04x'` formatting. -/
def hexDigitChar (n : Nat) : Char :=
  if n < 10 then Char.ofNat (48 + n) else Char.ofNat (87 + n)

/-- Four lowercase hex digits of `n % 0x10000`. -/
def toHex4 (n : Nat) : List Char :=
  [hexDigitChar (n / 4096 % 16), hexDigitChar (n / 256 % 16),
   hexDigitChar (n / 16 % 16), hexDigitChar (n % 16)]

/-- Value of one hex digit (either case), as accepted by the `\uXXXX`
escape of the json scanner. -/
def hexVal (c : Char) : Option Nat :=
  if 48 ≤ c.toNat ∧ c.toNat ≤ 57 then some (c.toNat - 48)
  else if 97 ≤ c.toNat ∧ c.toNat ≤ 102 then some (c.toNat - 87)
  else if 65 ≤ c.toNat ∧ c.toNat ≤ 70 then some (c.toNat - 55)
  else none

def hex4 (a b c d : Char) : Option Nat :=
  match hexVal a, hexVal b, hexVal c, hexVal d with
  | some x, some y, some z, some w => some (4096 * x + 256 * y + 16 * z + w)
  | _, _, _, _ => none

/-- `json.dumps` escaping of one code point under the default
`ensure_ascii=True`: printable ASCII except quote and backslash is emitted
literally, the short escapes cover the usual controls, everything else
becomes `\uXXXX` (a surrogate pair above `0xFFFF`). -/
def escCp (n : Nat) : List Char :=
  if n = 34 then ['\\', '"']
  else if n = 92 then ['\\', '\\']
  else if n = 8 then ['\\', 'b']
  else if n = 12 then ['\\', 'f']
  else if n = 10 then ['\\', 'n']
  else if n = 13 then ['\\', 'r']
  else if n = 9 then ['\\', 't']
  else if 32 ≤ n ∧ n ≤ 126 then [Char.ofNat n]
  else if n < 65536 then '\\' :: 'u' :: toHex4 n
  else ('\\' :: 'u' :: toHex4 (55296 + (n - 65536) / 1024)) ++
       ('\\' :: 'u' :: toHex4 (56320 + (n - 65536) % 1024))

def escStr (s : List Nat) : List Char := s.foldr (fun n acc => escCp n ++ acc) []

/-- Decimal digits of `n`, most significant first; the first argument is
recursion fuel, sufficient whenever it is at least `n`. -/
def natReprAux : Nat → Nat → List Char
  | 0, n => [Char.ofNat (48 + n % 10)]
  | fuel + 1, n =>
    if n < 10 then [Char.ofNat (48 + n)]
    else natReprAux fuel (n / 10) ++ [Char.ofNat (48 + n % 10)]

def natRepr (n : Nat) : List Char := natReprAux n n

/-- Python `str` of an `int`, as produced by `json.dumps` for a number. -/
def intRepr : Int → List Char
  | .ofNat n => natRepr n
  | .negSucc m => '-' :: natRepr (m + 1)

mutual
/-- `json.dumps(v, separators=(',', ':'))`: minimal-whitespace
serialization, insertion order of object keys preserved. -/
def jdumps : JValue → List Char
  | .jnull => ['n', 'u', 'l', 'l']
  | .jbool true => ['t', 'r', 'u', 'e']
  | .jbool false => ['f', 'a', 'l', 's', 'e']
  | .jnum n => intRepr n
  | .jstr s => '"' :: (escStr s ++ ['"'])
  | .jarr .anil => ['[', ']']
  | .jarr (.acons v t) => '[' :: (jdumps v ++ dumpsA t ++ [']'])
  | .jobj .onil => ['\x7b', '\x7d']
  | .jobj (.ocons k v t) =>
    '\x7b' :: (('"' :: (escStr k ++ '"' :: ':' :: jdumps v)) ++ dumpsO t ++ ['\x7d'])
  termination_by structural v => v
/-- Remaining array items, each preceded by the `','` separator. -/
def dumpsA : JArr → List Char
  | .anil => []
  | .acons v t => ',' :: (jdumps v ++ dumpsA t)
  termination_by structural t => t
/-- Remaining object members, each preceded by the `','` separator. -/
def dumpsO : JObj → List Char
  | .onil => []
  | .ocons k v t => ',' :: (('"' :: (escStr k ++ '"' :: ':' :: jdumps v)) ++ dumpsO t)
  termination_by structural o => o
end

/-- One `"key":value` member of a serialized object. -/
def dumpsKV (k : List Nat) (v : JValue) : List Char :=
  '"' :: (escStr k ++ '"' :: ':' :: jdumps v)

/-- JSON whitespace skipped by the decoder: space, tab, newline, carriage
return. -/
def isJsonWs (c : Char) : Bool := c == ' ' || c == '\t' || c == '\n' || c == '\r'

def skipWs (l : List Char) : List Char := l.dropWhile isJsonWs

def isDigitChar (c : Char) : Bool := 48 ≤ c.toNat && c.toNat ≤ 57

/-- Consume a run of decimal digits, folding them onto `acc`. -/
def parseDigits (acc : Nat) : List Char → Nat × List Char
  | [] => (acc, [])
  | c :: cs =>
    if isDigitChar c then parseDigits (acc * 10 + (c.toNat - 48)) cs
    else (acc, c :: cs)

/-- Unsigned integer literal: `0` (which ends the literal immediately) or a
nonzero digit followed by more digits.  A fraction or exponent part makes
the whole document unparseable for this model (floats are out of scope),
just as the leftover `.`/`e` makes every surrounding context fail. -/
def parseUNum : List Char → Option (Nat × List Char)
  | [] => none
  | c :: cs =>
    if c = '0' then some (0, cs)
    else if isDigitChar c then some (parseDigits (c.toNat - 48) cs)
    else none

/-- Signed integer literal, `json` number grammar restricted to integers. -/
def parseNum : List Char → Option (Int × List Char)
  | [] => none
  | c :: r =>
    if c = '-' then (parseUNum r).map (fun p => (-(p.1 : Int), p.2))
    else (parseUNum (c :: r)).map (fun p => ((p.1 : Int), p.2))

/-- Known one-character escapes of the json string scanner. -/
def shortEsc (e : Char) : Option Nat :=
  if e = '"' then some 34
  else if e = '\\' then some 92
  else if e = '/' then some 47
  else if e = 'b' then some 8
  else if e = 'f' then some 12
  else if e = 'n' then some 10
  else if e = 'r' then some 13
  else if e = 't' then some 9
  else none

/-- One lexical item of a json string: a literal character or short escape
(`lit`), or a `\uXXXX` escape (`uesc`).  Only a `uesc` participates in
surrogate-pair combination, exactly as the scanner only combines when the
next characters are literally `\u` followed by four hex digits. -/
inductive StrTok where
  | lit : Nat → StrTok
  | uesc : Nat → StrTok
deriving DecidableEq

/-- Lexical scan of a json string after the opening quote (strict mode):
literal characters up to the closing quote, raw controls rejected, the
escape table above, and `\uXXXX` with four mandatory hex digits. -/
def strTokens : List Char → Option (List StrTok × List Char)
  | [] => none
  | c :: cs =>
    if c = '"' then some ([], cs)
    else if c = '\\' then
      match cs with
      | [] => none
      | 'u' :: h1 :: h2 :: h3 :: h4 :: cs2 =>
        match hex4 h1 h2 h3 h4 with
        | none => none
        | some n => (strTokens cs2).map (fun p => (.uesc n :: p.1, p.2))
      | e :: cs1 =>
        match shortEsc e with
        | some n => (strTokens cs1).map (fun p => (.lit n :: p.1, p.2))
        | none => none
    else if c.toNat < 32 then none
    else (strTokens cs).map (fun p => (.lit c.toNat :: p.1, p.2))

/-- Surrogate combination pass of the string scanner: a `\uXXXX` high
surrogate immediately followed by a `\uXXXX` low surrogate becomes one
supplementary code point; any other token keeps its value (a lone
surrogate escape stays as an unpaired code point, as in Python). -/
def combineToks : List StrTok → List Nat
  | [] => []
  | .lit n :: rest => n :: combineToks rest
  | .uesc n :: .uesc m :: rest2 =>
    if (55296 ≤ n ∧ n ≤ 56319) ∧ (56320 ≤ m ∧ m ≤ 57343) then
      (65536 + (n - 55296) * 1024 + (m - 56320)) :: combineToks rest2
    else n :: combineToks (.uesc m :: rest2)
  | .uesc n :: rest => n :: combineToks rest

/-- The json string scanner: lexical scan, then surrogate combination. -/
def parseStr (l : List Char) : Option (List Nat × List Char) :=
  (strTokens l).map (fun p => (combineToks p.1, p.2))

/-- `dict` insertion: an existing key keeps its position and takes the new
value, a new key is appended. -/
def insertO : JObj → List Nat → JValue → JObj
  | .onil, k, v => .ocons k v .onil
  | .ocons k' v' t, k, v =>
    if k' = k then .ocons k' v t else .ocons k' v' (insertO t k v)

def dedupOAux : JObj → JObj → JObj
  | acc, .onil => acc
  | acc, .ocons k v t => dedupOAux (insertO acc k v) t

/-- `dict(pairs)`: fold the parsed members left to right through `dict`
insertion (duplicate keys collapse: first position, last value). -/
def dedupO (o : JObj) : JObj := dedupOAux .onil o

mutual
/-- One json value, starting at the given characters (no leading
whitespace), with recursion fuel; mirrors the scanner dispatch of
`json.loads`. -/
def parseVal : Nat → List Char → Option (JValue × List Char)
  | 0, _ => none
  | _ + 1, [] => none
  | f + 1, c :: cs =>
    if c = '"' then (parseStr cs).map (fun p => (.jstr p.1, p.2))
    else if c = '\x7b' then
      match skipWs cs with
      | '\x7d' :: r => some (.jobj .onil, r)
      | l1 => (parseMembers f l1).map (fun p => (.jobj (dedupO p.1), p.2))
    else if c = '[' then
      match skipWs cs with
      | ']' :: r => some (.jarr .anil, r)
      | l1 => (parseElems f l1).map (fun p => (.jarr p.1, p.2))
    else if c = 't' then
      match cs with
      | 'r' :: 'u' :: 'e' :: r => some (.jbool true, r)
      | _ => none
    else if c = 'f' then
      match cs with
      | 'a' :: 'l' :: 's' :: 'e' :: r => some (.jbool false, r)
      | _ => none
    else if c = 'n' then
      match cs with
      | 'u' :: 'l' :: 'l' :: r => some (.jnull, r)
      | _ => none
    else (parseNum (c :: cs)).map (fun p => (.jnum p.1, p.2))
  termination_by structural f => f
/-- The non-empty element list of an array, after `[` and whitespace. -/
def parseElems : Nat → List Char → Option (JArr × List Char)
  | 0, _ => none
  | f + 1, l =>
    match parseVal f l with
    | none => none
    | some (v, r) =>
      match skipWs r with
      | ',' :: r2 => (parseElems f (skipWs r2)).map (fun p => (.acons v p.1, p.2))
      | ']' :: r2 => some (.acons v .anil, r2)
      | _ => none
  termination_by structural f => f
/-- The non-empty member list of an object, after `{` and whitespace. -/
def parseMembers : Nat → List Char → Option (JObj × List Char)
  | 0, _ => none
  | f + 1, l =>
    match l with
    | '"' :: ks =>
      match parseStr ks with
      | none => none
      | some (k, r1) =>
        match skipWs r1 with
        | ':' :: r2 =>
          match parseVal f (skipWs r2) with
          | none => none
          | some (v, r3) =>
            match skipWs r3 with
            | ',' :: r4 => (parseMembers f (skipWs r4)).map (fun p => (.ocons k v p.1, p.2))
            | '\x7d' :: r4 => some (.ocons k v .onil, r4)
            | _ => none
        | _ => none
    | _ => none
  termination_by structural f => f
end

/-- `json.loads`: skip leading whitespace, parse one value, skip trailing
whitespace, and require the end of the document.  The fuel `length + 1`
never runs out, since every fuel-consuming step first consumes at least one
input character. -/
def jparse (l : List Char) : Option JValue :=
  match parseVal (l.length + 1) (skipWs l) with
  | some (v, r) => if skipWs r = [] then some v else none
  | none => none

/-- `minify_json` (src/minify_files.py lines 59-75): parse, and on success
re-serialize with `separators=(',', ':')`; `None` on a parse failure. -/
def minify_json (l : List Char) : Option (List Char) := (jparse l).map jdumps

/-! ## C6: JSON minification output -/

/-- C6: on any successfully parsed document the JSON minifier returns
exactly the `jdumps` re-serialization of the parsed value — the
`separators=(',', ':')` form with no whitespace outside strings, strings
escaped but preserved, object member order preserved — and on the input
from the spec the output is exactly the expected minified text. -/
theorem minify_json_is_dumps_of_parse :
    (∀ s v, jparse s = some v → minify_json s = some (jdumps v)) ∧
    minify_json ("\x7b\"a\": \"x  y\", \"b\": [1, 2]\x7d".toList) =
      some ("\x7b\"a\":\"x  y\",\"b\":[1,2]\x7d".toList) := by
  constructor
  · intro s v h
    simp [minify_json, h]
  · decide

/-- Witness for C6 at a concrete input. -/
theorem minify_json_is_dumps_of_parse_witness :
    jparse ("[1]".toList) = some (.jarr (.acons (.jnum 1) .anil)) ∧
    minify_json ("[1]".toList) = some (jdumps (.jarr (.acons (.jnum 1) .anil))) :=
  ⟨by decide, minify_json_is_dumps_of_parse.1 _ _ (by decide)⟩

/-! ## Character code helpers for the round-trip proof -/

theorem toNat_ofNat_valid {n : Nat} (h : n.isValidChar) : (Char.ofNat n).toNat = n := by
  simp [Char.ofNat, h, Char.ofNatAux, Char.toNat, UInt32.toNat]

theorem char_toNat_inj {a b : Char} (h : a.toNat = b.toNat) : a = b := by
  apply Char.eq_of_val_eq
  apply UInt32.ext
  simpa [Char.toNat, UInt32.toNat] using h

theorem char_toNat_lt (c : Char) : c.toNat < 1114112 := by
  have h := c.valid
  rcases h with h | h <;> simp only [Char.toNat] <;> omega

theorem char_not_surrogate (c : Char) : ¬(55296 ≤ c.toNat ∧ c.toNat ≤ 57343) := by
  have h := c.valid
  rcases h with h | h <;> simp only [Char.toNat] <;> omega

theorem hexVal_hexDigitChar : ∀ k, k < 16 → hexVal (hexDigitChar k) = some k := by decide

theorem hex4_toHex4 {n : Nat} (h : n < 65536) :
    hex4 (hexDigitChar (n / 4096 % 16)) (hexDigitChar (n / 256 % 16))
      (hexDigitChar (n / 16 % 16)) (hexDigitChar (n % 16)) = some n := by
  rw [hex4, hexVal_hexDigitChar _ (Nat.mod_lt _ (by omega)),
    hexVal_hexDigitChar _ (Nat.mod_lt _ (by omega)),
    hexVal_hexDigitChar _ (Nat.mod_lt _ (by omega)),
    hexVal_hexDigitChar _ (Nat.mod_lt _ (by omega))]
  simp only [Option.some.injEq]
  omega

theorem toNat_digit {n : Nat} (h : n < 10) : (Char.ofNat (48 + n)).toNat = 48 + n :=
  toNat_ofNat_valid (Or.inl (by omega))

theorem natReprAux_digits :
    ∀ f n, n ≤ f → ∀ c ∈ natReprAux f n, isDigitChar c = true := by
  intro f
  induction f with
  | zero =>
    intro n hn c hc
    interval_cases n
    simp only [natReprAux, List.mem_singleton] at hc
    subst hc
    decide
  | succ f ih =>
    intro n hn c hc
    by_cases h10 : n < 10
    · simp only [natReprAux, h10, if_true, List.mem_singleton] at hc
      subst hc
      simp only [isDigitChar, toNat_digit h10, Bool.and_eq_true, decide_eq_true_eq]
      omega
    · simp only [natReprAux, h10, if_false, List.mem_append, List.mem_singleton] at hc
      rcases hc with hc | hc
      · exact ih (n / 10) (by omega) c hc
      · subst hc
        have hm : n % 10 < 10 := Nat.mod_lt _ (by omega)
        simp only [isDigitChar, toNat_digit hm, Bool.and_eq_true, decide_eq_true_eq]
        omega

theorem natReprAux_ne_nil : ∀ f n, natReprAux f n ≠ [] := by
  intro f n
  cases f with
  | zero => simp [natReprAux]
  | succ f =>
    by_cases h10 : n < 10
    · simp [natReprAux, h10]
    · simp only [natReprAux, h10, if_false]
      intro h
      exact absurd (List.append_eq_nil.mp h).2 (by simp)

theorem natReprAux_head_pos :
    ∀ f n, 0 < n → n ≤ f → ∀ c cs, natReprAux f n = c :: cs → c ≠ '0' := by
  intro f
  induction f with
  | zero => intro n hn hf c cs hc; omega
  | succ f ih =>
    intro n hn hf c cs hc
    by_cases h10 : n < 10
    · simp only [natReprAux, h10, if_true, List.cons.injEq] at hc
      intro he
      rw [he] at hc
      have h1 := congrArg Char.toNat hc.1
      rw [toNat_digit h10] at h1
      have h0 : ('0' : Char).toNat = 48 := by decide
      omega
    · simp only [natReprAux, h10, if_false] at hc
      obtain ⟨d, ds, hds⟩ := List.exists_cons_of_ne_nil (natReprAux_ne_nil f (n / 10))
      rw [hds, List.cons_append, List.cons.injEq] at hc
      exact hc.1 ▸ ih (n / 10) (by omega) (by omega) d ds hds

/-- All-digit runs fold through `parseDigits` and stop at the first
non-digit. -/
theorem parseDigits_append :
    ∀ (ds : List Char) rest acc, (∀ c ∈ ds, isDigitChar c = true) →
      (∀ y, rest.head? = some y → isDigitChar y = false) →
      parseDigits acc (ds ++ rest) =
        (List.foldl (fun a c => a * 10 + (c.toNat - 48)) acc ds, rest) := by
  intro ds
  induction ds with
  | nil =>
    intro rest acc _ hrest
    cases rest with
    | nil => rfl
    | cons y ys =>
      have := hrest y rfl
      simp [parseDigits, this]
  | cons c cs ih =>
    intro rest acc hds hrest
    have hc : isDigitChar c = true := hds c (List.mem_cons_self _ _)
    simp only [List.cons_append, parseDigits, hc, if_true, List.foldl_cons]
    exact ih rest _ (fun x hx => hds x (List.mem_cons_of_mem _ hx)) hrest

theorem foldl_natReprAux :
    ∀ f n acc, n ≤ f →
      List.foldl (fun a c => a * 10 + (c.toNat - 48)) acc (natReprAux f n) =
        acc * 10 ^ (natReprAux f n).length + n := by
  intro f
  induction f with
  | zero =>
    intro n acc hn
    interval_cases n
    simp [natReprAux, toNat_digit]
  | succ f ih =>
    intro n acc hn
    by_cases h10 : n < 10
    · simp [natReprAux, h10, toNat_digit h10]
    · simp only [natReprAux, h10, if_false, List.foldl_append, List.foldl_cons,
        List.foldl_nil, List.length_append, List.length_cons, List.length_nil]
      rw [ih (n / 10) acc (by omega)]
      have hm : n % 10 < 10 := Nat.mod_lt _ (by omega)
      rw [toNat_digit hm]
      generalize (natReprAux f (n / 10)).length = L
      rw [pow_succ, ← Nat.mul_assoc]
      omega

theorem parseUNum_natRepr :
    ∀ n rest, (∀ y, rest.head? = some y → isDigitChar y = false) →
      parseUNum (natRepr n ++ rest) = some (n, rest) := by
  intro n rest hrest
  rcases Nat.eq_zero_or_pos n with h0 | hpos
  · subst h0
    have h : natRepr 0 = ['0'] := by decide
    rw [h]
    simp [parseUNum]
  · obtain ⟨c, cs, hds⟩ := List.exists_cons_of_ne_nil (natReprAux_ne_nil n n)
    have hc0 : c ≠ '0' := natReprAux_head_pos n n hpos le_rfl c cs hds
    have hcd : isDigitChar c = true :=
      natReprAux_digits n n le_rfl c (by rw [hds]; exact List.mem_cons_self _ _)
    have hcsd : ∀ x ∈ cs, isDigitChar x = true := by
      intro x hx
      exact natReprAux_digits n n le_rfl x (by rw [hds]; exact List.mem_cons_of_mem _ hx)
    rw [show natRepr n = c :: cs from hds, List.cons_append]
    simp only [parseUNum, hc0, if_false, hcd, if_true]
    rw [parseDigits_append cs rest _ hcsd hrest]
    have hv := foldl_natReprAux n n 0 le_rfl
    rw [hds] at hv
    simp only [List.foldl_cons, Nat.zero_mul, Nat.zero_add] at hv
    rw [hv]

theorem parseNum_intRepr :
    ∀ (m : Int) rest, (∀ y, rest.head? = some y → isDigitChar y = false) →
      parseNum (intRepr m ++ rest) = some (m, rest) := by
  intro m rest hrest
  cases m with
  | ofNat n =>
    obtain ⟨c, cs, hds⟩ := List.exists_cons_of_ne_nil (natReprAux_ne_nil n n)
    have hcd : isDigitChar c = true :=
      natReprAux_digits n n le_rfl c (by rw [hds]; exact List.mem_cons_self _ _)
    have hcm : c ≠ '-' := by
      intro h
      subst h
      simp [isDigitChar] at hcd
    have h1 : intRepr (Int.ofNat n) = c :: cs := hds
    rw [h1, List.cons_append]
    simp only [parseNum, hcm, if_false]
    rw [← List.cons_append, ← h1]
    show (parseUNum (natRepr n ++ rest)).map _ = _
    rw [parseUNum_natRepr n rest hrest]
    simp
  | negSucc k =>
    show parseNum ('-' :: (natRepr (k + 1) ++ rest)) = _
    simp only [parseNum, if_true]
    rw [parseUNum_natRepr (k + 1) rest hrest]
    simp only [Option.map, Option.some.injEq, Prod.mk.injEq]
    refine ⟨?_, trivial⟩
    simp [Int.negSucc_eq]

/-! ## String escape round trip -/

def isHighSur (n : Nat) : Prop := 55296 ≤ n ∧ n ≤ 56319

def isLowSur (n : Nat) : Prop := 56320 ≤ n ∧ n ≤ 57343

instance (n : Nat) : Decidable (isHighSur n) := by unfold isHighSur; infer_instance

instance (n : Nat) : Decidable (isLowSur n) := by unfold isLowSur; infer_instance

/-- Adjacent code points of a parsed string never form a high-low surrogate
pair (such a pair in the source is combined by the scanner instead). -/
def surOk (a b : Nat) : Prop := ¬(isHighSur a ∧ isLowSur b)

/-- Wellformedness of a parsed string: code points in Unicode range, and no
adjacent high-low surrogate pair. -/
def WFStr (s : List Nat) : Prop := (∀ n ∈ s, n < 1114112) ∧ List.Chain' surOk s

/-- The token sequence `escCp n` lexes back to (same branch structure as
`escCp`). -/
def escToks (n : Nat) : List StrTok :=
  if n = 34 then [.lit 34]
  else if n = 92 then [.lit 92]
  else if n = 8 then [.lit 8]
  else if n = 12 then [.lit 12]
  else if n = 10 then [.lit 10]
  else if n = 13 then [.lit 13]
  else if n = 9 then [.lit 9]
  else if 32 ≤ n ∧ n ≤ 126 then [.lit n]
  else if n < 65536 then [.uesc n]
  else [.uesc (55296 + (n - 65536) / 1024), .uesc (56320 + (n - 65536) % 1024)]

def toksOfStr (s : List Nat) : List StrTok := s.foldr (fun n acc => escToks n ++ acc) []

theorem strTokens_uesc (m : Nat) (X : List Char) (hm : m < 65536) :
    strTokens ('\\' :: 'u' :: (toHex4 m ++ X)) =
      (strTokens X).map (fun p => (.uesc m :: p.1, p.2)) := by
  show strTokens ('\\' :: 'u' :: ([hexDigitChar (m / 4096 % 16), hexDigitChar (m / 256 % 16),
    hexDigitChar (m / 16 % 16), hexDigitChar (m % 16)] ++ X)) = _
  simp only [List.cons_append, List.nil_append]
  simp only [strTokens]
  rw [hex4_toHex4 hm]
  simp

theorem strTokens_lit (c : Char) (X : List Char) (h1 : c ≠ '"') (h2 : c ≠ '\\')
    (h3 : 32 ≤ c.toNat) :
    strTokens (c :: X) = (strTokens X).map (fun p => (.lit c.toNat :: p.1, p.2)) := by
  rw [strTokens.eq_def]
  dsimp only
  rw [if_neg h1, if_neg h2, if_neg (show ¬c.toNat < 32 by omega)]

theorem strTokens_escCp (n : Nat) (hn : n < 1114112) (X : List Char) :
    strTokens (escCp n ++ X) = (strTokens X).map (fun p => (escToks n ++ p.1, p.2)) := by
  by_cases h1 : n = 34
  · subst h1
    show strTokens ('\\' :: '"' :: X) = _
    rw [strTokens.eq_def]; dsimp only
    cases hX : strTokens X <;> simp [shortEsc, escToks, hX]
  by_cases h2 : n = 92
  · subst h2
    show strTokens ('\\' :: '\\' :: X) = _
    rw [strTokens.eq_def]; dsimp only
    cases hX : strTokens X <;> simp [shortEsc, escToks, hX]
  by_cases h3 : n = 8
  · subst h3
    show strTokens ('\\' :: 'b' :: X) = _
    rw [strTokens.eq_def]; dsimp only
    cases hX : strTokens X <;> simp [shortEsc, escToks, hX]
  by_cases h4 : n = 12
  · subst h4
    show strTokens ('\\' :: 'f' :: X) = _
    rw [strTokens.eq_def]; dsimp only
    cases hX : strTokens X <;> simp [shortEsc, escToks, hX]
  by_cases h5 : n = 10
  · subst h5
    show strTokens ('\\' :: 'n' :: X) = _
    rw [strTokens.eq_def]; dsimp only
    cases hX : strTokens X <;> simp [shortEsc, escToks, hX]
  by_cases h6 : n = 13
  · subst h6
    show strTokens ('\\' :: 'r' :: X) = _
    rw [strTokens.eq_def]; dsimp only
    cases hX : strTokens X <;> simp [shortEsc, escToks, hX]
  by_cases h7 : n = 9
  · subst h7
    show strTokens ('\\' :: 't' :: X) = _
    rw [strTokens.eq_def]; dsimp only
    cases hX : strTokens X <;> simp [shortEsc, escToks, hX]
  by_cases h8 : 32 ≤ n ∧ n ≤ 126
  · have e1 : escCp n = [Char.ofNat n] := by
      unfold escCp
      rw [if_neg h1, if_neg h2, if_neg h3, if_neg h4, if_neg h5, if_neg h6, if_neg h7,
        if_pos h8]
    have e2 : escToks n = [.lit n] := by
      unfold escToks
      rw [if_neg h1, if_neg h2, if_neg h3, if_neg h4, if_neg h5, if_neg h6, if_neg h7,
        if_pos h8]
    have hv : (Char.ofNat n).toNat = n := toNat_ofNat_valid (Or.inl (by omega))
    have hne1 : Char.ofNat n ≠ '"' := by
      intro he
      rw [he] at hv
      have hq : ('"' : Char).toNat = 34 := by decide
      omega
    have hne2 : Char.ofNat n ≠ '\\' := by
      intro he
      rw [he] at hv
      have hq : ('\\' : Char).toNat = 92 := by decide
      omega
    rw [e1, e2, List.cons_append, List.nil_append, strTokens_lit _ _ hne1 hne2 (by omega)]
    cases hX : strTokens X <;> simp [hv, hX]
  by_cases h9 : n < 65536
  · have e1 : escCp n = '\\' :: 'u' :: toHex4 n := by
      unfold escCp
      rw [if_neg h1, if_neg h2, if_neg h3, if_neg h4, if_neg h5, if_neg h6, if_neg h7,
        if_neg h8, if_pos h9]
    have e2 : escToks n = [.uesc n] := by
      unfold escToks
      rw [if_neg h1, if_neg h2, if_neg h3, if_neg h4, if_neg h5, if_neg h6, if_neg h7,
        if_neg h8, if_pos h9]
    rw [e1, e2]
    show strTokens ('\\' :: 'u' :: (toHex4 n ++ X)) = _
    rw [strTokens_uesc n X h9]
    cases hX : strTokens X <;> simp [hX]
  · have e1 : escCp n =
        ('\\' :: 'u' :: toHex4 (55296 + (n - 65536) / 1024)) ++
        ('\\' :: 'u' :: toHex4 (56320 + (n - 65536) % 1024)) := by
      unfold escCp
      rw [if_neg h1, if_neg h2, if_neg h3, if_neg h4, if_neg h5, if_neg h6, if_neg h7,
        if_neg h8, if_neg h9]
    have e2 : escToks n =
        [.uesc (55296 + (n - 65536) / 1024), .uesc (56320 + (n - 65536) % 1024)] := by
      unfold escToks
      rw [if_neg h1, if_neg h2, if_neg h3, if_neg h4, if_neg h5, if_neg h6, if_neg h7,
        if_neg h8, if_neg h9]
    rw [e1, e2]
    have hd : (n - 65536) / 1024 ≤ 1023 := by omega
    have hm : (n - 65536) % 1024 ≤ 1023 := Nat.le_of_lt_succ (Nat.mod_lt _ (by omega))
    show strTokens ('\\' :: 'u' :: (toHex4 (55296 + (n - 65536) / 1024) ++
      ('\\' :: 'u' :: (toHex4 (56320 + (n - 65536) % 1024) ++ X)))) = _
    rw [strTokens_uesc _ _ (by omega), strTokens_uesc _ _ (by omega)]
    cases hX : strTokens X <;> simp [hX]

theorem strTokens_toksOf :
    ∀ s rest, (∀ n ∈ s, n < 1114112) →
      strTokens (escStr s ++ '"' :: rest) = some (toksOfStr s, rest) := by
  intro s
  induction s with
  | nil =>
    intro rest _
    show strTokens ('"' :: rest) = some ([], rest)
    rw [strTokens.eq_def]
    dsimp only
    simp [toksOfStr]
  | cons n s' ih =>
    intro rest hb
    have hn : n < 1114112 := hb n (List.mem_cons_self _ _)
    have hIH := ih rest fun x hx => hb x (List.mem_cons_of_mem _ hx)
    show strTokens ((escCp n ++ escStr s') ++ '"' :: rest) =
      some (escToks n ++ toksOfStr s', rest)
    rw [List.append_assoc, strTokens_escCp n hn, hIH]
    simp

theorem combineToks_lit (n : Nat) (ts : List StrTok) :
    combineToks (.lit n :: ts) = n :: combineToks ts := rfl

theorem combineToks_uesc_nh {n : Nat} (hn : ¬isHighSur n) (ts : List StrTok) :
    combineToks (.uesc n :: ts) = n :: combineToks ts := by
  cases ts with
  | nil => rfl
  | cons t rest =>
    cases t with
    | lit m => rfl
    | uesc m =>
      show (if (55296 ≤ n ∧ n ≤ 56319) ∧ (56320 ≤ m ∧ m ≤ 57343) then _ else _) = _
      rw [if_neg (fun hq => hn hq.1)]

theorem combineToks_uesc_h_nl {n : Nat} (hn : isHighSur n) (ts : List StrTok)
    (hts : ∀ m rest2, ts = .uesc m :: rest2 → ¬isLowSur m) :
    combineToks (.uesc n :: ts) = n :: combineToks ts := by
  cases ts with
  | nil => rfl
  | cons t rest =>
    cases t with
    | lit m => rfl
    | uesc m =>
      show (if (55296 ≤ n ∧ n ≤ 56319) ∧ (56320 ≤ m ∧ m ≤ 57343) then _ else _) = _
      rw [if_neg (fun hq => hts m rest rfl hq.2)]

theorem combineToks_pair {n m : Nat} (hn : isHighSur n) (hm : isLowSur m)
    (ts : List StrTok) :
    combineToks (.uesc n :: .uesc m :: ts) =
      (65536 + (n - 55296) * 1024 + (m - 56320)) :: combineToks ts := by
  show (if (55296 ≤ n ∧ n ≤ 56319) ∧ (56320 ≤ m ∧ m ≤ 57343) then _ else _) = _
  rw [if_pos ⟨hn, hm⟩]

theorem escToks_shape (n : Nat) (hn : n < 1114112) :
    escToks n = [.lit n] ∨ escToks n = [.uesc n] ∨
    (escToks n = [.uesc (55296 + (n - 65536) / 1024), .uesc (56320 + (n - 65536) % 1024)] ∧
      65536 ≤ n) := by
  unfold escToks
  split_ifs with h1 h2 h3 h4 h5 h6 h7 h8 h9
  · subst h1; left; rfl
  · subst h2; left; rfl
  · subst h3; left; rfl
  · subst h4; left; rfl
  · subst h5; left; rfl
  · subst h6; left; rfl
  · subst h7; left; rfl
  · left; rfl
  · right; left; rfl
  · right; right; exact ⟨rfl, by omega⟩

theorem head_uesc_low :
    ∀ (s : List Nat) m rest2, (∀ x ∈ s, x < 1114112) →
      toksOfStr s = .uesc m :: rest2 → isLowSur m → ∃ s'', s = m :: s'' := by
  intro s m rest2 hb ht hm
  cases s with
  | nil => simp [toksOfStr] at ht
  | cons n s' =>
    have hn : n < 1114112 := hb n (List.mem_cons_self _ _)
    have hshape := escToks_shape n hn
    have hts : toksOfStr (n :: s') = escToks n ++ toksOfStr s' := rfl
    rcases hshape with hs | hs | ⟨hs, hge⟩ <;> rw [hts, hs] at ht
    · simp at ht
    · simp only [List.cons_append, List.nil_append, List.cons.injEq] at ht
      have : n = m := by
        have := ht.1
        simpa using this
      exact ⟨s', by rw [this]⟩
    · simp only [List.cons_append, List.nil_append, List.cons.injEq] at ht
      have hnm : 55296 + (n - 65536) / 1024 = m := by
        have := ht.1
        simpa using this
      exfalso
      unfold isLowSur at hm
      omega

theorem combineToks_toksOfStr : ∀ s, WFStr s → combineToks (toksOfStr s) = s := by
  intro s
  induction s with
  | nil => intro _; rfl
  | cons n s' ih =>
    intro hWF
    have hn : n < 1114112 := hWF.1 n (List.mem_cons_self _ _)
    have hWF' : WFStr s' :=
      ⟨fun x hx => hWF.1 x (List.mem_cons_of_mem _ hx), hWF.2.tail⟩
    have hIH := ih hWF'
    have hts : toksOfStr (n :: s') = escToks n ++ toksOfStr s' := rfl
    rcases escToks_shape n hn with hs | hs | ⟨hs, hge⟩ <;> rw [hts, hs]
    · simp only [List.cons_append, List.nil_append, combineToks_lit, hIH]
    · simp only [List.cons_append, List.nil_append]
      by_cases hh : isHighSur n
      · rw [combineToks_uesc_h_nl hh _ ?_, hIH]
        intro m rest2 hts2 hm
        obtain ⟨s'', hs''⟩ := head_uesc_low s' m rest2 hWF'.1 hts2 hm
        subst hs''
        have := (List.chain'_cons'.mp hWF.2).1 m rfl
        exact this ⟨hh, hm⟩
      · rw [combineToks_uesc_nh hh, hIH]
    · simp only [List.cons_append, List.nil_append]
      rw [combineToks_pair (by unfold isHighSur; omega)
        (by unfold isLowSur; constructor <;> omega), hIH]
      have hval : 65536 + (55296 + (n - 65536) / 1024 - 55296) * 1024 +
          (56320 + (n - 65536) % 1024 - 56320) = n := by omega
      rw [hval]

theorem parseStr_escStr {s : List Nat} (hWF : WFStr s) (rest : List Char) :
    parseStr (escStr s ++ '"' :: rest) = some (s, rest) := by
  unfold parseStr
  rw [strTokens_toksOf s rest hWF.1]
  simp [combineToks_toksOfStr s hWF]

/-- Values a single parsed token may carry: a `lit` is never a surrogate
(it comes from a `Char` or the short-escape table), a `uesc` is any 16-bit
value. -/
def tokOK : StrTok → Prop
  | .lit n => n < 1114112 ∧ ¬(55296 ≤ n ∧ n ≤ 57343)
  | .uesc n => n < 65536

theorem hexVal_lt {c : Char} {v : Nat} (h : hexVal c = some v) : v < 16 := by
  unfold hexVal at h
  split_ifs at h with h1 h2 h3 <;> injection h with hv <;> omega

theorem hex4_lt {a b c d : Char} {n : Nat} (h : hex4 a b c d = some n) : n < 65536 := by
  unfold hex4 at h
  rcases ha : hexVal a with _ | x
  · rw [ha] at h; exact absurd h (by simp)
  rcases hb : hexVal b with _ | y
  · rw [ha, hb] at h; exact absurd h (by simp)
  rcases hc : hexVal c with _ | z
  · rw [ha, hb, hc] at h; exact absurd h (by simp)
  rcases hd : hexVal d with _ | w
  · rw [ha, hb, hc, hd] at h; exact absurd h (by simp)
  rw [ha, hb, hc, hd] at h
  dsimp only at h
  injection h with hv
  have h1 := hexVal_lt ha
  have h2 := hexVal_lt hb
  have h3 := hexVal_lt hc
  have h4 := hexVal_lt hd
  omega

theorem shortEsc_ok {e : Char} {n : Nat} (h : shortEsc e = some n) :
    n < 1114112 ∧ ¬(55296 ≤ n ∧ n ≤ 57343) := by
  unfold shortEsc at h
  split_ifs at h <;> injection h with hv <;> omega


theorem strTokens_ok : ∀ (l : List Char) ts r, strTokens l = some (ts, r) →
    ∀ t ∈ ts, tokOK t := by
  intro l
  induction l using strTokens.induct
  all_goals intro ts r h t ht
  all_goals try simp only [strTokens] at h
  case case1 => exact absurd h (by simp)
  case case2 =>
    rw [strTokens.eq_def] at h
    dsimp only at h
    injection h with h1
    injection h1 with h2 h3
    subst h2
    simp at ht
  case case3 => simp at h
  case case4 a b c d cs2 hx hne =>
    rw [if_neg hne, if_pos trivial, hx] at h
    dsimp only at h
    exact absurd h (by simp)
  case case5 a b c d cs2 n hx hne ih =>
    rw [if_neg hne, if_pos trivial, hx] at h
    dsimp only at h
    rcases hs : strTokens cs2 with _ | p <;> rw [hs] at h
    · exact absurd h (by simp)
    · dsimp only [Option.map] at h
      injection h with h1
      injection h1 with h2 h3
      rw [← h2] at ht
      rcases List.mem_cons.mp ht with hteq | htmem
      · subst hteq
        exact hex4_lt hx
      · exact ih p.1 p.2 (by rw [hs]) t htmem
  case case6 e cs1 hpat n hx hne ih =>
    rw [if_neg hne, if_pos trivial, hx] at h
    dsimp only at h
    rcases hs : strTokens cs1 with _ | p <;> rw [hs] at h
    · exact absurd h (by simp)
    · dsimp only [Option.map] at h
      injection h with h1
      injection h1 with h2 h3
      rw [← h2] at ht
      rcases List.mem_cons.mp ht with hteq | htmem
      · subst hteq
        exact shortEsc_ok hx
      · exact ih p.1 p.2 (by rw [hs]) t htmem
  case case7 e cs1 hpat hx hne =>
    rw [if_neg hne, if_pos trivial, hx] at h
    dsimp only at h
    exact absurd h (by simp)
  case case8 c cs h1 h2 h3 =>
    rw [strTokens.eq_def] at h
    dsimp only at h
    rw [if_neg h1, if_neg h2, if_pos h3] at h
    exact absurd h (by simp)
  case case9 c cs h1 h2 h3 ih =>
    rw [strTokens.eq_def] at h
    dsimp only at h
    rw [if_neg h1, if_neg h2, if_neg h3] at h
    rcases hs : strTokens cs with _ | p <;> rw [hs] at h
    · exact absurd h (by simp)
    · dsimp only [Option.map] at h
      injection h with hp
      injection hp with hp1 hp2
      rw [← hp1] at ht
      rcases List.mem_cons.mp ht with hteq | htmem
      · subst hteq
        exact ⟨char_toNat_lt c, char_not_surrogate c⟩
      · exact ih p.1 p.2 (by rw [hs]) t htmem

theorem combineToks_nopair {n m : Nat} {rest2 : List StrTok}
    (h : ¬((55296 ≤ n ∧ n ≤ 56319) ∧ (56320 ≤ m ∧ m ≤ 57343))) :
    combineToks (.uesc n :: .uesc m :: rest2) = n :: combineToks (.uesc m :: rest2) := by
  show (if _ then _ else _) = _
  rw [if_neg h]

theorem combineToks_head_low :
    ∀ ts, (∀ t ∈ ts, tokOK t) → ∀ v, (combineToks ts).head? = some v → isLowSur v →
      ∃ rest2, ts = StrTok.uesc v :: rest2 := by
  intro ts hok v hv hl
  cases ts with
  | nil => simp [combineToks] at hv
  | cons t rest =>
    cases t with
    | lit n =>
      rw [combineToks_lit] at hv
      simp only [List.head?_cons, Option.some.injEq] at hv
      subst hv
      have hok' := hok _ (List.mem_cons_self _ _)
      refine absurd ?_ hok'.2
      unfold isLowSur at hl
      exact ⟨by omega, by omega⟩
    | uesc n =>
      cases rest with
      | nil =>
        have he : combineToks [StrTok.uesc n] = [n] := rfl
        rw [he] at hv
        simp only [List.head?_cons, Option.some.injEq] at hv
        exact ⟨[], by rw [hv]⟩
      | cons t2 rest2 =>
        cases t2 with
        | lit m =>
          have he : combineToks (StrTok.uesc n :: StrTok.lit m :: rest2) =
              n :: combineToks (StrTok.lit m :: rest2) := rfl
          rw [he] at hv
          simp only [List.head?_cons, Option.some.injEq] at hv
          exact ⟨_, by rw [hv]⟩
        | uesc m =>
          by_cases hc : (55296 ≤ n ∧ n ≤ 56319) ∧ (56320 ≤ m ∧ m ≤ 57343)
          · rw [combineToks_pair hc.1 hc.2] at hv
            simp only [List.head?_cons, Option.some.injEq] at hv
            exfalso
            unfold isLowSur at hl
            omega
          · rw [combineToks_nopair hc] at hv
            simp only [List.head?_cons, Option.some.injEq] at hv
            exact ⟨_, by rw [hv]⟩

theorem combineToks_wf : ∀ ts, (∀ t ∈ ts, tokOK t) → WFStr (combineToks ts) := by
  intro ts
  induction ts using combineToks.induct
  all_goals intro hok
  case case1 => exact ⟨by simp [combineToks], by simp [combineToks]⟩
  case case2 n rest ih =>
    have hok' : ∀ t ∈ rest, tokOK t := fun t ht => hok t (List.mem_cons_of_mem _ ht)
    have hIH := ih hok'
    have hokn := hok _ (List.mem_cons_self _ _)
    rw [combineToks_lit]
    constructor
    · intro x hx
      rcases List.mem_cons.mp hx with hx | hx
      · exact hx ▸ hokn.1
      · exact hIH.1 x hx
    · refine List.chain'_cons'.mpr ⟨?_, hIH.2⟩
      intro y _ hq
      refine hokn.2 ?_
      unfold isHighSur at hq
      exact ⟨by omega, by omega⟩
  case case3 n m rest2 hc ih =>
    have hok' : ∀ t ∈ rest2, tokOK t :=
      fun t ht => hok t (List.mem_cons_of_mem _ (List.mem_cons_of_mem _ ht))
    have hIH := ih hok'
    rw [combineToks_pair hc.1 hc.2]
    constructor
    · intro x hx
      rcases List.mem_cons.mp hx with hx | hx
      · rcases hc with ⟨⟨hc1, hc2⟩, hc3, hc4⟩
        omega
      · exact hIH.1 x hx
    · refine List.chain'_cons'.mpr ⟨?_, hIH.2⟩
      intro y _ hq
      unfold isHighSur at hq
      omega
  case case4 n m rest2 hc ih =>
    have hok' : ∀ t ∈ StrTok.uesc m :: rest2, tokOK t :=
      fun t ht => hok t (List.mem_cons_of_mem _ ht)
    have hIH := ih hok'
    have hokn := hok _ (List.mem_cons_self _ _)
    rw [combineToks_nopair hc]
    constructor
    · intro x hx
      rcases List.mem_cons.mp hx with hx | hx
      · have hn65 : n < 65536 := hokn
        omega
      · exact hIH.1 x hx
    · refine List.chain'_cons'.mpr ⟨?_, hIH.2⟩
      intro y hy hq
      obtain ⟨rest3, hr⟩ :=
        combineToks_head_low _ hok' y (Option.mem_def.mp hy) hq.2
      injection hr with hr1 hr2
      injection hr1 with hrm
      exact hc ⟨hq.1, hrm ▸ hq.2⟩
  case case5 n rest hpat ih =>
    have hok' : ∀ t ∈ rest, tokOK t := fun t ht => hok t (List.mem_cons_of_mem _ ht)
    have hIH := ih hok'
    have hokn := hok _ (List.mem_cons_self _ _)
    have he : combineToks (StrTok.uesc n :: rest) = n :: combineToks rest := by
      cases rest with
      | nil => rfl
      | cons t2 r2 =>
        cases t2 with
        | lit m => rfl
        | uesc m => exact (hpat m r2 rfl).elim
    rw [he]
    constructor
    · intro x hx
      rcases List.mem_cons.mp hx with hx | hx
      · have hn65 : n < 65536 := hokn
        omega
      · exact hIH.1 x hx
    · refine List.chain'_cons'.mpr ⟨?_, hIH.2⟩
      intro y hy hq
      obtain ⟨rest3, hr⟩ :=
        combineToks_head_low _ hok' y (Option.mem_def.mp hy) hq.2
      exact hpat y rest3 hr

/-- Strings produced by the scanner are wellformed. -/
theorem parseStr_wf {l : List Char} {s : List Nat} {r : List Char}
    (h : parseStr l = some (s, r)) : WFStr s := by
  unfold parseStr at h
  rcases hs : strTokens l with _ | p <;> rw [hs] at h
  · exact absurd h (by simp)
  · dsimp only [Option.map] at h
    injection h with h1
    injection h1 with h2 h3
    rw [← h2]
    exact combineToks_wf p.1 (strTokens_ok l p.1 p.2 (by rw [hs]))

/-! ## Wellformed values, sizes and `dict` deduplication -/

mutual
/-- Node count of a value, used as a fuel bound for the parser. -/
def sizeV : JValue → Nat
  | .jnull => 1
  | .jbool _ => 1
  | .jnum _ => 1
  | .jstr _ => 1
  | .jarr xs => sizeA xs + 1
  | .jobj o => sizeO o + 1
  termination_by structural v => v
def sizeA : JArr → Nat
  | .anil => 0
  | .acons v t => sizeV v + sizeA t + 1
  termination_by structural a => a
def sizeO : JObj → Nat
  | .onil => 0
  | .ocons _ v t => sizeV v + sizeO t + 1
  termination_by structural o => o
end

def okeys : JObj → List (List Nat)
  | .onil => []
  | .ocons k _ t => k :: okeys t

mutual
/-- Wellformedness of values in the image of the parser: strings carry no
adjacent surrogate pair, object keys are distinct. -/
def WFV : JValue → Prop
  | .jnull => True
  | .jbool _ => True
  | .jnum _ => True
  | .jstr s => WFStr s
  | .jarr xs => WFA xs
  | .jobj o => WFO o ∧ (okeys o).Nodup
  termination_by structural v => v
def WFA : JArr → Prop
  | .anil => True
  | .acons v t => WFV v ∧ WFA t
  termination_by structural a => a
def WFO : JObj → Prop
  | .onil => True
  | .ocons k v t => WFStr k ∧ WFV v ∧ WFO t
  termination_by structural o => o
end

def appendO : JObj → JObj → JObj
  | .onil, o => o
  | .ocons k v t, o => .ocons k v (appendO t o)

theorem appendO_onil : ∀ a, appendO a .onil = a := by
  intro a
  induction a using okeys.induct with
  | case1 => rfl
  | case2 k v t ih => simp [appendO, ih]

theorem appendO_assoc : ∀ a b c, appendO (appendO a b) c = appendO a (appendO b c) := by
  intro a b c
  induction a using okeys.induct with
  | case1 => rfl
  | case2 k v t ih => simp [appendO, ih]

theorem okeys_appendO : ∀ a b, okeys (appendO a b) = okeys a ++ okeys b := by
  intro a b
  induction a using okeys.induct with
  | case1 => simp [appendO, okeys]
  | case2 k v t ih => simp [appendO, okeys, ih]

theorem insertO_not_mem : ∀ a k v, k ∉ okeys a →
    insertO a k v = appendO a (.ocons k v .onil) := by
  intro a k v hk
  induction a using okeys.induct with
  | case1 => rfl
  | case2 k' v' t ih =>
    simp only [okeys, List.mem_cons, not_or] at hk
    simp only [insertO, appendO]
    rw [if_neg (fun he => hk.1 he.symm)]
    rw [ih hk.2]

theorem okeys_insertO : ∀ a k v,
    okeys (insertO a k v) = if k ∈ okeys a then okeys a else okeys a ++ [k] := by
  intro a k v
  induction a using okeys.induct with
  | case1 => simp [insertO, okeys]
  | case2 k' v' t ih =>
    simp only [insertO, okeys]
    by_cases he : k' = k
    · subst he
      rw [if_pos rfl, if_pos (List.mem_cons_self _ _)]
      rfl
    · rw [if_neg he, okeys, ih]
      by_cases hm : k ∈ okeys t
      · rw [if_pos hm, if_pos (List.mem_cons_of_mem _ hm)]
      · rw [if_neg hm, if_neg (by
          intro hc
          rcases List.mem_cons.mp hc with hc | hc
          · exact he hc.symm
          · exact hm hc)]
        rfl

theorem nodup_insertO : ∀ a k v, (okeys a).Nodup → (okeys (insertO a k v)).Nodup := by
  intro a k v h
  rw [okeys_insertO]
  by_cases hm : k ∈ okeys a
  · rw [if_pos hm]; exact h
  · rw [if_neg hm]
    refine List.Nodup.append h (List.nodup_singleton k) ?_
    intro x hx hx'
    rw [List.mem_singleton] at hx'
    exact hm (hx' ▸ hx)

theorem WFO_insertO : ∀ a k v, WFO a → WFStr k → WFV v → WFO (insertO a k v) := by
  intro a k v ha hk hv
  induction a using okeys.induct with
  | case1 => exact ⟨hk, hv, trivial⟩
  | case2 k' v' t ih =>
    obtain ⟨h1, h2, h3⟩ := ha
    simp only [insertO]
    by_cases he : k' = k
    · rw [if_pos he]
      exact ⟨h1, hv, h3⟩
    · rw [if_neg he]
      exact ⟨h1, h2, ih h3⟩

theorem dedupOAux_wf : ∀ o acc, WFO acc → (okeys acc).Nodup → WFO o →
    WFO (dedupOAux acc o) ∧ (okeys (dedupOAux acc o)).Nodup := by
  intro o
  induction o using okeys.induct with
  | case1 => intro acc h1 h2 _; exact ⟨h1, h2⟩
  | case2 k v t ih =>
    intro acc h1 h2 ho
    obtain ⟨hk, hv, ht⟩ := ho
    exact ih (insertO acc k v) (WFO_insertO acc k v h1 hk hv) (nodup_insertO acc k v h2) ht

theorem dedupO_wf : ∀ o, WFO o → WFO (dedupO o) ∧ (okeys (dedupO o)).Nodup := by
  intro o ho
  exact dedupOAux_wf o .onil trivial (by simp [okeys]) ho

theorem dedupOAux_append : ∀ o acc, (∀ k ∈ okeys o, k ∉ okeys acc) → (okeys o).Nodup →
    dedupOAux acc o = appendO acc o := by
  intro o
  induction o using okeys.induct with
  | case1 => intro acc _ _; simp [dedupOAux, appendO_onil]
  | case2 k v t ih =>
    intro acc hdisj hnd
    have hk : k ∉ okeys acc := hdisj k (List.mem_cons_self _ _)
    show dedupOAux (insertO acc k v) t = _
    rw [insertO_not_mem acc k v hk]
    rw [ih (appendO acc (.ocons k v .onil)) ?_ (List.Nodup.of_cons hnd)]
    · rw [appendO_assoc]
      rfl
    · intro k' hk'
      rw [okeys_appendO]
      intro hc
      rcases List.mem_append.mp hc with hc | hc
      · exact hdisj k' (List.mem_cons_of_mem _ hk') hc
      · simp only [okeys, List.mem_cons] at hc
        rcases hc with hc | hc
        · subst hc
          exact (List.nodup_cons.mp hnd).1 hk'
        · simp [okeys] at hc

theorem dedupO_self : ∀ o, (okeys o).Nodup → dedupO o = o := by
  intro o h
  unfold dedupO
  rw [dedupOAux_append o .onil (by simp [okeys]) h]
  rfl

theorem parse_wf : ∀ f,
    (∀ l v r, parseVal f l = some (v, r) → WFV v) ∧
    (∀ l xs r, parseElems f l = some (xs, r) → WFA xs) ∧
    (∀ l o r, parseMembers f l = some (o, r) → WFO o) := by
  intro f
  induction f with
  | zero =>
    refine ⟨?_, ?_, ?_⟩ <;> intro l x r h <;>
      exact absurd h (by simp [parseVal, parseElems, parseMembers])
  | succ f ih =>
    refine ⟨?_, ?_, ?_⟩
    · intro l v r h
      cases l with
      | nil => exact absurd h (by simp [parseVal])
      | cons c cs =>
        simp only [parseVal] at h
        split_ifs at h with h1 h2 h3 h4 h5 h6
        · rcases hs : parseStr cs with _ | p <;> rw [hs] at h
          · exact absurd h (by simp)
          · dsimp only [Option.map] at h
            injection h with hp
            injection hp with hp1 hp2
            rw [← hp1]
            show WFStr p.1
            exact parseStr_wf (s := p.1) (r := p.2) (by rw [hs])
        · split at h
          · injection h with hp
            injection hp with hp1 hp2
            rw [← hp1]
            exact ⟨trivial, by simp [okeys]⟩
          · rcases hm : parseMembers f _ with _ | p <;> rw [hm] at h
            · exact absurd h (by simp)
            · dsimp only [Option.map] at h
              injection h with hp
              injection hp with hp1 hp2
              rw [← hp1]
              exact dedupO_wf p.1 (ih.2.2 _ p.1 p.2 (by rw [hm]))
        · split at h
          · injection h with hp
            injection hp with hp1 hp2
            rw [← hp1]
            exact trivial
          · rcases hm : parseElems f _ with _ | p <;> rw [hm] at h
            · exact absurd h (by simp)
            · dsimp only [Option.map] at h
              injection h with hp
              injection hp with hp1 hp2
              rw [← hp1]
              exact ih.2.1 _ p.1 p.2 (by rw [hm])
        · split at h
          · injection h with hp
            injection hp with hp1 hp2
            rw [← hp1]
            exact trivial
          · exact absurd h (by simp)
        · split at h
          · injection h with hp
            injection hp with hp1 hp2
            rw [← hp1]
            exact trivial
          · exact absurd h (by simp)
        · split at h
          · injection h with hp
            injection hp with hp1 hp2
            rw [← hp1]
            exact trivial
          · exact absurd h (by simp)
        · rcases hn : parseNum (c :: cs) with _ | p <;> rw [hn] at h
          · exact absurd h (by simp)
          · dsimp only [Option.map] at h
            injection h with hp
            injection hp with hp1 hp2
            rw [← hp1]
            exact trivial
    · intro l xs r h
      simp only [parseElems] at h
      rcases hv : parseVal f l with _ | p <;> rw [hv] at h
      · exact absurd h (by simp)
      · obtain ⟨v0, r0⟩ := p
        dsimp only at h
        split at h
        · rcases he : parseElems f _ with _ | q <;> rw [he] at h
          · exact absurd h (by simp)
          · dsimp only [Option.map] at h
            injection h with hp
            injection hp with hp1 hp2
            rw [← hp1]
            exact ⟨ih.1 l v0 r0 hv, ih.2.1 _ q.1 q.2 (by rw [he])⟩
        · injection h with hp
          injection hp with hp1 hp2
          rw [← hp1]
          exact ⟨ih.1 l v0 r0 hv, trivial⟩
        · exact absurd h (by simp)
    · intro l o r h
      simp only [parseMembers] at h
      split at h
      · rcases hk : parseStr _ with _ | pk <;> rw [hk] at h
        · exact absurd h (by simp)
        · obtain ⟨k0, r1⟩ := pk
          dsimp only at h
          split at h
          · rcases hv : parseVal f _ with _ | pv <;> rw [hv] at h
            · exact absurd h (by simp)
            · obtain ⟨v0, r3⟩ := pv
              dsimp only at h
              split at h
              · rcases hm : parseMembers f _ with _ | q <;> rw [hm] at h
                · exact absurd h (by simp)
                · dsimp only [Option.map] at h
                  injection h with hp
                  injection hp with hp1 hp2
                  rw [← hp1]
                  exact ⟨parseStr_wf hk, ih.1 _ v0 r3 hv, ih.2.2 _ q.1 q.2 (by rw [hm])⟩
              · injection h with hp
                injection hp with hp1 hp2
                rw [← hp1]
                exact ⟨parseStr_wf hk, ih.1 _ v0 r3 hv, trivial⟩
              · exact absurd h (by simp)
          · exact absurd h (by simp)
      · exact absurd h (by simp)

theorem sizeV_pos (v : JValue) : 1 ≤ sizeV v := by
  cases v <;> simp [sizeV]

theorem skipWs_eq_self {l : List Char} (h : ∀ y, l.head? = some y → isJsonWs y = false) :
    skipWs l = l :=
  dropWhile_eq_self h

/-- Head shape of a serialized value: never whitespace and never one of the
closing/separator characters, so the parser dispatch is unambiguous. -/
theorem jdumps_head (v : JValue) :
    ∃ c t, jdumps v = c :: t ∧ isJsonWs c = false ∧ c ≠ ']' ∧ c ≠ '\x7d' ∧ c ≠ ',' := by
  cases v with
  | jnull => exact ⟨'n', _, rfl, by decide, by decide, by decide, by decide⟩
  | jbool b =>
    cases b
    · exact ⟨'f', _, rfl, by decide, by decide, by decide, by decide⟩
    · exact ⟨'t', _, rfl, by decide, by decide, by decide, by decide⟩
  | jnum m =>
    cases m with
    | ofNat n =>
      obtain ⟨c, cs, hds⟩ := List.exists_cons_of_ne_nil (natReprAux_ne_nil n n)
      have hcd : isDigitChar c = true :=
        natReprAux_digits n n le_rfl c (by rw [hds]; exact List.mem_cons_self _ _)
      simp only [isDigitChar, Bool.and_eq_true, decide_eq_true_eq] at hcd
      refine ⟨c, cs, hds, ?_, ?_, ?_, ?_⟩
      · simp only [isJsonWs, Bool.or_eq_false_iff, beq_eq_false_iff_ne, ne_eq]
        refine ⟨⟨⟨?_, ?_⟩, ?_⟩, ?_⟩ <;> intro he <;> rw [he] at hcd <;> revert hcd <;> decide
      · intro he; rw [he] at hcd; revert hcd; decide
      · intro he; rw [he] at hcd; revert hcd; decide
      · intro he; rw [he] at hcd; revert hcd; decide
    | negSucc k =>
      exact ⟨'-', _, rfl, by decide, by decide, by decide, by decide⟩
  | jstr s => exact ⟨'"', _, rfl, by decide, by decide, by decide, by decide⟩
  | jarr xs =>
    cases xs
    · exact ⟨'[', _, rfl, by decide, by decide, by decide, by decide⟩
    · exact ⟨'[', _, rfl, by decide, by decide, by decide, by decide⟩
  | jobj o =>
    cases o
    · exact ⟨'\x7b', _, rfl, by decide, by decide, by decide, by decide⟩
    · exact ⟨'\x7b', _, rfl, by decide, by decide, by decide, by decide⟩

/-! ## Round trip: parsing a serialized value -/

/-- The element region of a serialized non-empty array (before `]`). -/
def elemsText : JArr → List Char
  | .anil => []
  | .acons v t => jdumps v ++ dumpsA t

/-- The member region of a serialized non-empty object (before the brace). -/
def membersText : JObj → List Char
  | .onil => []
  | .ocons k v t => dumpsKV k v ++ dumpsO t

def noDigitHead (rest : List Char) : Prop :=
  ∀ y, rest.head? = some y → isDigitChar y = false

theorem skipWs_jdumps (v : JValue) (X : List Char) :
    skipWs (jdumps v ++ X) = jdumps v ++ X := by
  obtain ⟨c, t, heq, hws, _, _, _⟩ := jdumps_head v
  rw [heq, List.cons_append]
  unfold skipWs
  rw [List.dropWhile_cons, if_neg (by simp [hws])]

theorem dumpsA_noDigitHead (t : JArr) (rest : List Char) :
    noDigitHead (dumpsA t ++ ']' :: rest) := by
  intro y hy
  cases t with
  | anil =>
    simp only [dumpsA, List.nil_append, List.head?_cons, Option.some.injEq] at hy
    rw [← hy]; decide
  | acons v t' =>
    simp only [dumpsA, List.cons_append, List.head?_cons, Option.some.injEq] at hy
    rw [← hy]; decide

theorem dumpsO_noDigitHead (t : JObj) (rest : List Char) :
    noDigitHead (dumpsO t ++ '\x7d' :: rest) := by
  intro y hy
  cases t with
  | onil =>
    simp only [dumpsO, List.nil_append, List.head?_cons, Option.some.injEq] at hy
    rw [← hy]; decide
  | ocons k v t' =>
    simp only [dumpsO, List.cons_append, List.head?_cons, Option.some.injEq] at hy
    rw [← hy]; decide

theorem digit_ne {c : Char} (hc : 48 ≤ c.toNat ∧ c.toNat ≤ 57) (d : Char)
    (hd : d.toNat < 48 ∨ 57 < d.toNat) : c ≠ d := by
  intro he
  subst he
  omega

theorem skipWs_cons_of {c : Char} (h : isJsonWs c = false) (l : List Char) :
    skipWs (c :: l) = c :: l := by
  unfold skipWs
  rw [List.dropWhile_cons, if_neg (by simp [h])]

theorem pv_null (f : Nat) (r : List Char) :
    parseVal (f + 1) ('n' :: 'u' :: 'l' :: 'l' :: r) = some (.jnull, r) := rfl

theorem pv_true (f : Nat) (r : List Char) :
    parseVal (f + 1) ('t' :: 'r' :: 'u' :: 'e' :: r) = some (.jbool true, r) := rfl

theorem pv_false (f : Nat) (r : List Char) :
    parseVal (f + 1) ('f' :: 'a' :: 'l' :: 's' :: 'e' :: r) = some (.jbool false, r) := rfl

theorem pv_str (f : Nat) (cs : List Char) :
    parseVal (f + 1) ('"' :: cs) = (parseStr cs).map (fun p => (.jstr p.1, p.2)) := rfl

theorem pv_arr_eq (f : Nat) (cs : List Char) :
    parseVal (f + 1) ('[' :: cs) =
      (match skipWs cs with
        | ']' :: r => some (JValue.jarr JArr.anil, r)
        | l1 => (parseElems f l1).map (fun p => (JValue.jarr p.1, p.2))) := rfl

theorem pv_obj_eq (f : Nat) (cs : List Char) :
    parseVal (f + 1) ('\x7b' :: cs) =
      (match skipWs cs with
        | '\x7d' :: r => some (JValue.jobj JObj.onil, r)
        | l1 => (parseMembers f l1).map (fun p => (JValue.jobj (dedupO p.1), p.2))) := rfl

theorem pv_arr_nil (f : Nat) (r : List Char) :
    parseVal (f + 1) ('[' :: ']' :: r) = some (.jarr .anil, r) := by
  rw [pv_arr_eq, skipWs_cons_of (by decide)]
  rfl

theorem pv_arr (f : Nat) (cs : List Char) (c0 : Char) (X : List Char)
    (h : skipWs cs = c0 :: X) (hne : c0 ≠ ']') :
    parseVal (f + 1) ('[' :: cs) =
      (parseElems f (c0 :: X)).map (fun p => (.jarr p.1, p.2)) := by
  rw [pv_arr_eq, h]
  split
  next r heq2 =>
    injection heq2 with h1 _
    exact absurd h1 hne
  next => rfl

theorem pv_obj_nil (f : Nat) (r : List Char) :
    parseVal (f + 1) ('\x7b' :: '\x7d' :: r) = some (.jobj .onil, r) := by
  rw [pv_obj_eq, skipWs_cons_of (by decide)]
  rfl

theorem pv_obj (f : Nat) (cs : List Char) (c0 : Char) (X : List Char)
    (h : skipWs cs = c0 :: X) (hne : c0 ≠ '\x7d') :
    parseVal (f + 1) ('\x7b' :: cs) =
      (parseMembers f (c0 :: X)).map (fun p => (.jobj (dedupO p.1), p.2)) := by
  rw [pv_obj_eq, h]
  split
  next r heq2 =>
    injection heq2 with h1 _
    exact absurd h1 hne
  next => rfl

theorem pe_close (f : Nat) (l : List Char) (v : JValue) (r r2 : List Char)
    (hv : parseVal f l = some (v, r)) (h : skipWs r = ']' :: r2) :
    parseElems (f + 1) l = some (.acons v .anil, r2) := by
  simp only [parseElems]
  rw [hv]
  dsimp only
  rw [h]
  rfl

theorem pe_comma (f : Nat) (l : List Char) (v : JValue) (r r2 : List Char)
    (hv : parseVal f l = some (v, r)) (h : skipWs r = ',' :: r2) :
    parseElems (f + 1) l =
      (parseElems f (skipWs r2)).map (fun p => (.acons v p.1, p.2)) := by
  simp only [parseElems]
  rw [hv]
  dsimp only
  rw [h]
  rfl

theorem pm_eq (f : Nat) (ks : List Char) :
    parseMembers (f + 1) ('"' :: ks) =
      (match parseStr ks with
        | none => none
        | some (k, r1) =>
          match skipWs r1 with
          | ':' :: r2 =>
            match parseVal f (skipWs r2) with
            | none => none
            | some (v, r3) =>
              match skipWs r3 with
              | ',' :: r4 =>
                (parseMembers f (skipWs r4)).map (fun p => (JObj.ocons k v p.1, p.2))
              | '\x7d' :: r4 => some (JObj.ocons k v JObj.onil, r4)
              | _ => none
          | _ => none) := rfl

theorem pv_num_eq {f : Nat} {c : Char} {cs : List Char}
    (h1 : c ≠ '"') (h2 : c ≠ '\x7b') (h3 : c ≠ '[') (h4 : c ≠ 't')
    (h5 : c ≠ 'f') (h6 : c ≠ 'n') :
    parseVal (f + 1) (c :: cs) = (parseNum (c :: cs)).map (fun p => (.jnum p.1, p.2)) := by
  simp only [parseVal]
  rw [if_neg h1, if_neg h2, if_neg h3, if_neg h4, if_neg h5, if_neg h6]

theorem pm_close {f : Nat} {ks : List Char} {k : List Nat} {r1 r2 r3 r4 : List Char} {v : JValue}
    (hk : parseStr ks = some (k, r1)) (h1 : skipWs r1 = ':' :: r2)
    (hv : parseVal f (skipWs r2) = some (v, r3)) (h2 : skipWs r3 = '\x7d' :: r4) :
    parseMembers (f + 1) ('"' :: ks) = some (.ocons k v .onil, r4) := by
  rw [pm_eq f ks, hk]
  dsimp only
  rw [h1]
  split
  next r2x heq =>
    injection heq with h0 h
    subst h
    rw [hv]
    dsimp only
    rw [h2]
    rfl
  next h =>
    exact absurd rfl (h r2)

theorem pm_comma {f : Nat} {ks : List Char} {k : List Nat} {r1 r2 r3 r4 : List Char} {v : JValue}
    (hk : parseStr ks = some (k, r1)) (h1 : skipWs r1 = ':' :: r2)
    (hv : parseVal f (skipWs r2) = some (v, r3)) (h2 : skipWs r3 = ',' :: r4) :
    parseMembers (f + 1) ('"' :: ks) =
      (parseMembers f (skipWs r4)).map (fun p => (.ocons k v p.1, p.2)) := by
  rw [pm_eq f ks, hk]
  dsimp only
  rw [h1]
  split
  next r2x heq =>
    injection heq with h0 h
    subst h
    rw [hv]
    dsimp only
    rw [h2]
    rfl
  next h =>
    exact absurd rfl (h r2)

theorem parse_rt : ∀ fuel : Nat,
    (∀ v rest, WFV v → sizeV v ≤ fuel → noDigitHead rest →
      parseVal fuel (jdumps v ++ rest) = some (v, rest)) ∧
    (∀ xs rest, WFA xs → sizeA xs ≤ fuel → xs ≠ JArr.anil →
      parseElems fuel (elemsText xs ++ ']' :: rest) = some (xs, rest)) ∧
    (∀ o rest, WFO o → sizeO o ≤ fuel → o ≠ JObj.onil →
      parseMembers fuel (membersText o ++ '\x7d' :: rest) = some (o, rest)) := by
  intro fuel
  induction fuel with
  | zero =>
    refine ⟨?_, ?_, ?_⟩
    · intro v rest _ hsz _
      exact absurd hsz (by have := sizeV_pos v; omega)
    · intro xs rest _ hsz hne
      cases xs with
      | anil => exact absurd rfl hne
      | acons v t =>
        have := sizeV_pos v
        simp only [sizeA] at hsz
        omega
    · intro o rest _ hsz hne
      cases o with
      | onil => exact absurd rfl hne
      | ocons k v t =>
        have := sizeV_pos v
        simp only [sizeO] at hsz
        omega
  | succ f ih =>
    obtain ⟨ihV, ihA, ihO⟩ := ih
    refine ⟨?_, ?_, ?_⟩
    · intro v rest hWF hsz hnd
      cases v with
      | jnull => exact pv_null f rest
      | jbool b =>
        cases b with
        | false => exact pv_false f rest
        | true => exact pv_true f rest
      | jnum m =>
        cases m with
        | ofNat n =>
          obtain ⟨c, cs, hds⟩ := List.exists_cons_of_ne_nil (natReprAux_ne_nil n n)
          have hcd : isDigitChar c = true :=
            natReprAux_digits n n le_rfl c (by rw [hds]; exact List.mem_cons_self _ _)
          have hct : 48 ≤ c.toNat ∧ c.toNat ≤ 57 := by
            simpa [isDigitChar, Bool.and_eq_true, decide_eq_true_eq] using hcd
          have hl : jdumps (JValue.jnum (Int.ofNat n)) ++ rest = c :: (cs ++ rest) := by
            show natReprAux n n ++ rest = _
            rw [hds, List.cons_append]
          rw [hl, pv_num_eq (digit_ne hct '"' (by decide))
            (digit_ne hct '\x7b' (by decide)) (digit_ne hct '[' (by decide))
            (digit_ne hct 't' (by decide)) (digit_ne hct 'f' (by decide))
            (digit_ne hct 'n' (by decide))]
          rw [← List.cons_append, ← hds]
          show (parseNum (intRepr (Int.ofNat n) ++ rest)).map _ = _
          rw [parseNum_intRepr _ rest hnd]
          rfl
        | negSucc p =>
          have hl : jdumps (JValue.jnum (Int.negSucc p)) ++ rest =
              '-' :: (natRepr (p + 1) ++ rest) := rfl
          rw [hl, pv_num_eq (by decide) (by decide) (by decide) (by decide)
            (by decide) (by decide)]
          rw [← List.cons_append]
          show (parseNum (intRepr (Int.negSucc p) ++ rest)).map _ = _
          rw [parseNum_intRepr _ rest hnd]
          rfl
      | jstr s =>
        have hl : jdumps (JValue.jstr s) ++ rest = '"' :: (escStr s ++ '"' :: rest) := by
          show ('"' :: (escStr s ++ ['"'])) ++ rest = _
          rw [List.cons_append, List.append_assoc, List.singleton_append]
        rw [hl, pv_str f (escStr s ++ '"' :: rest),
          parseStr_escStr (show WFStr s from hWF) rest]
        rfl
      | jarr xs =>
        cases xs with
        | anil => exact pv_arr_nil f rest
        | acons v t =>
          simp only [sizeV] at hsz
          obtain ⟨c0, t0, heq, hws0, hbr0, hbr1, hcm0⟩ := jdumps_head v
          have hl : jdumps (JValue.jarr (JArr.acons v t)) ++ rest =
              '[' :: (elemsText (JArr.acons v t) ++ ']' :: rest) := by
            show ('[' :: (jdumps v ++ dumpsA t ++ [']'])) ++ rest = _
            simp [elemsText, List.append_assoc]
          have h1 : elemsText (JArr.acons v t) ++ ']' :: rest =
              c0 :: (t0 ++ (dumpsA t ++ ']' :: rest)) := by
            show (jdumps v ++ dumpsA t) ++ ']' :: rest = _
            rw [heq]
            simp [List.append_assoc]
          have hsk : skipWs (elemsText (JArr.acons v t) ++ ']' :: rest) =
              c0 :: (t0 ++ (dumpsA t ++ ']' :: rest)) := by
            rw [h1]
            exact skipWs_cons_of hws0 _
          rw [hl, pv_arr f _ c0 _ hsk hbr0, ← h1,
            ihA (JArr.acons v t) rest hWF (by omega) (by simp)]
          rfl
      | jobj o =>
        cases o with
        | onil => exact pv_obj_nil f rest
        | ocons k v t =>
          have hWF2 : (WFO (JObj.ocons k v t) ∧ (okeys (JObj.ocons k v t)).Nodup) := hWF
          simp only [sizeV] at hsz
          have hl : jdumps (JValue.jobj (JObj.ocons k v t)) ++ rest =
              '\x7b' :: (membersText (JObj.ocons k v t) ++ '\x7d' :: rest) := by
            show ('\x7b' :: (('"' :: (escStr k ++ '"' :: ':' :: jdumps v)) ++
              dumpsO t ++ ['\x7d'])) ++ rest = _
            simp [membersText, dumpsKV, List.append_assoc]
          have h1 : membersText (JObj.ocons k v t) ++ '\x7d' :: rest =
              '"' :: ((escStr k ++ '"' :: ':' :: jdumps v) ++ (dumpsO t ++ '\x7d' :: rest)) := by
            show (('"' :: (escStr k ++ '"' :: ':' :: jdumps v)) ++ dumpsO t) ++ '\x7d' :: rest = _
            simp [List.append_assoc]
          have hsk : skipWs (membersText (JObj.ocons k v t) ++ '\x7d' :: rest) =
              '"' :: ((escStr k ++ '"' :: ':' :: jdumps v) ++ (dumpsO t ++ '\x7d' :: rest)) := by
            rw [h1]
            exact skipWs_cons_of (by decide) _
          rw [hl, pv_obj f _ '"' _ hsk (by decide), ← h1,
            ihO (JObj.ocons k v t) rest hWF2.1 (by omega) (by simp)]
          show some (JValue.jobj (dedupO (JObj.ocons k v t)), rest) = _
          rw [dedupO_self _ hWF2.2]
    · intro xs rest hWF hsz hne
      cases xs with
      | anil => exact absurd rfl hne
      | acons v t =>
        have hWF2 : WFV v ∧ WFA t := hWF
        simp only [sizeA] at hsz
        have hvp := sizeV_pos v
        have hl : elemsText (JArr.acons v t) ++ ']' :: rest =
            jdumps v ++ (dumpsA t ++ ']' :: rest) := by
          show (jdumps v ++ dumpsA t) ++ ']' :: rest = _
          rw [List.append_assoc]
        have hv : parseVal f (elemsText (JArr.acons v t) ++ ']' :: rest) =
            some (v, dumpsA t ++ ']' :: rest) := by
          rw [hl]
          exact ihV v _ hWF2.1 (by omega) (dumpsA_noDigitHead t rest)
        cases t with
        | anil =>
          have hsk : skipWs (dumpsA JArr.anil ++ ']' :: rest) = ']' :: rest := by
            show skipWs (']' :: rest) = _
            exact skipWs_cons_of (by decide) rest
          exact pe_close f _ v _ rest hv hsk
        | acons v2 t2 =>
          have h3 : dumpsA (JArr.acons v2 t2) ++ ']' :: rest =
              ',' :: (jdumps v2 ++ (dumpsA t2 ++ ']' :: rest)) := by
            show (',' :: (jdumps v2 ++ dumpsA t2)) ++ ']' :: rest = _
            simp [List.append_assoc]
          have hsk : skipWs (dumpsA (JArr.acons v2 t2) ++ ']' :: rest) =
              ',' :: (jdumps v2 ++ (dumpsA t2 ++ ']' :: rest)) := by
            rw [h3]
            exact skipWs_cons_of (by decide) _
          rw [pe_comma f _ v _ _ hv hsk, skipWs_jdumps v2 _]
          have h4 : jdumps v2 ++ (dumpsA t2 ++ ']' :: rest) =
              elemsText (JArr.acons v2 t2) ++ ']' :: rest := by
            show _ = (jdumps v2 ++ dumpsA t2) ++ ']' :: rest
            rw [List.append_assoc]
          rw [h4, ihA (JArr.acons v2 t2) rest hWF2.2 (by simp only [sizeA] at hsz ⊢; omega) (by simp)]
          rfl
    · intro o rest hWF hsz hne
      cases o with
      | onil => exact absurd rfl hne
      | ocons k v t =>
        have hWF2 : WFStr k ∧ WFV v ∧ WFO t := hWF
        simp only [sizeO] at hsz
        have hvp := sizeV_pos v
        have hl : membersText (JObj.ocons k v t) ++ '\x7d' :: rest =
            '"' :: (escStr k ++ '"' :: (':' :: (jdumps v ++ (dumpsO t ++ '\x7d' :: rest)))) := by
          show (('"' :: (escStr k ++ '"' :: ':' :: jdumps v)) ++ dumpsO t) ++ '\x7d' :: rest = _
          simp [List.append_assoc]
        have hk := parseStr_escStr hWF2.1 (':' :: (jdumps v ++ (dumpsO t ++ '\x7d' :: rest)))
        have h1 : skipWs (':' :: (jdumps v ++ (dumpsO t ++ '\x7d' :: rest))) =
            ':' :: (jdumps v ++ (dumpsO t ++ '\x7d' :: rest)) :=
          skipWs_cons_of (by decide) _
        have hv2 : parseVal f (skipWs (jdumps v ++ (dumpsO t ++ '\x7d' :: rest))) =
            some (v, dumpsO t ++ '\x7d' :: rest) := by
          rw [skipWs_jdumps]
          exact ihV v _ hWF2.2.1 (by omega) (dumpsO_noDigitHead t rest)
        cases t with
        | onil =>
          have h2 : skipWs (dumpsO JObj.onil ++ '\x7d' :: rest) = '\x7d' :: rest := by
            show skipWs ('\x7d' :: rest) = _
            exact skipWs_cons_of (by decide) rest
          rw [hl]
          exact pm_close hk h1 hv2 h2
        | ocons k2 v2 t2 =>
          have h3 : dumpsO (JObj.ocons k2 v2 t2) ++ '\x7d' :: rest =
              ',' :: (dumpsKV k2 v2 ++ (dumpsO t2 ++ '\x7d' :: rest)) := by
            show (',' :: (('"' :: (escStr k2 ++ '"' :: ':' :: jdumps v2)) ++ dumpsO t2)) ++
              '\x7d' :: rest = _
            simp [dumpsKV, List.append_assoc]
          have h2 : skipWs (dumpsO (JObj.ocons k2 v2 t2) ++ '\x7d' :: rest) =
              ',' :: (dumpsKV k2 v2 ++ (dumpsO t2 ++ '\x7d' :: rest)) := by
            rw [h3]
            exact skipWs_cons_of (by decide) _
          rw [hl, pm_comma hk h1 hv2 h2]
          have h4 : skipWs (dumpsKV k2 v2 ++ (dumpsO t2 ++ '\x7d' :: rest)) =
              dumpsKV k2 v2 ++ (dumpsO t2 ++ '\x7d' :: rest) := by
            show skipWs ('"' :: ((escStr k2 ++ '"' :: ':' :: jdumps v2) ++
              (dumpsO t2 ++ '\x7d' :: rest))) =
              '"' :: ((escStr k2 ++ '"' :: ':' :: jdumps v2) ++ (dumpsO t2 ++ '\x7d' :: rest))
            exact skipWs_cons_of (by decide) _
          rw [h4]
          have h5 : dumpsKV k2 v2 ++ (dumpsO t2 ++ '\x7d' :: rest) =
              membersText (JObj.ocons k2 v2 t2) ++ '\x7d' :: rest := by
            show _ = (dumpsKV k2 v2 ++ dumpsO t2) ++ '\x7d' :: rest
            rw [List.append_assoc]
          rw [h5, ihO (JObj.ocons k2 v2 t2) rest hWF2.2.2
            (by simp only [sizeO] at hsz ⊢; omega) (by simp)]
          rfl

mutual
theorem sizeV_le_dumps : ∀ v : JValue, sizeV v ≤ (jdumps v).length
  | .jnull => by simp [sizeV, jdumps]
  | .jbool true => by simp [sizeV, jdumps]
  | .jbool false => by simp [sizeV, jdumps]
  | .jnum m => by
      have h : intRepr m ≠ [] := by
        cases m with
        | ofNat n => exact natReprAux_ne_nil n n
        | negSucc k => simp [intRepr]
      have h2 : 0 < (intRepr m).length := List.length_pos.mpr h
      simp only [sizeV, jdumps]
      omega
  | .jstr s => by simp [sizeV, jdumps]
  | .jarr .anil => by simp [sizeV, sizeA, jdumps]
  | .jarr (.acons v t) => by
      have hv := sizeV_le_dumps v
      have ht := sizeA_le_dumps t
      simp only [sizeV, sizeA, jdumps, List.length_cons, List.length_append]
      omega
  | .jobj .onil => by simp [sizeV, sizeO, jdumps]
  | .jobj (.ocons k v t) => by
      have hv := sizeV_le_dumps v
      have ht := sizeO_le_dumps t
      simp only [sizeV, sizeO, jdumps, List.length_cons, List.length_append]
      omega
  termination_by structural v => v
theorem sizeA_le_dumps : ∀ xs : JArr, sizeA xs ≤ (dumpsA xs).length
  | .anil => by simp [sizeA, dumpsA]
  | .acons v t => by
      have hv := sizeV_le_dumps v
      have ht := sizeA_le_dumps t
      simp only [sizeA, dumpsA, List.length_cons, List.length_append]
      omega
  termination_by structural xs => xs
theorem sizeO_le_dumps : ∀ o : JObj, sizeO o ≤ (dumpsO o).length
  | .onil => by simp [sizeO, dumpsO]
  | .ocons k v t => by
      have hv := sizeV_le_dumps v
      have ht := sizeO_le_dumps t
      simp only [sizeO, dumpsO, List.length_cons, List.length_append]
      omega
  termination_by structural o => o
end

theorem jparse_wf {s : List Char} {v : JValue} (h : jparse s = some v) : WFV v := by
  unfold jparse at h
  rcases hp : parseVal (s.length + 1) (skipWs s) with _ | ⟨v0, r⟩ <;> rw [hp] at h
  · exact absurd h (by simp)
  · dsimp only at h
    split_ifs at h
    · injection h with h1
      rw [← h1]
      exact (parse_wf (s.length + 1)).1 _ v0 r hp

theorem jparse_dumps (v : JValue) (hWF : WFV v) : jparse (jdumps v) = some v := by
  unfold jparse
  have hsk : skipWs (jdumps v) = jdumps v := by
    obtain ⟨c, t, heq, hws, _, _, _⟩ := jdumps_head v
    rw [heq]
    exact skipWs_cons_of hws t
  rw [hsk]
  have hfuel : sizeV v ≤ (jdumps v).length + 1 :=
    le_trans (sizeV_le_dumps v) (Nat.le_succ _)
  have h := (parse_rt ((jdumps v).length + 1)).1 v [] hWF hfuel
    (by intro y hy; simp at hy)
  rw [List.append_nil] at h
  rw [h]
  simp [skipWs]

/-- C1: for every input that parses as valid JSON, `minify_json` succeeds and
parsing its output yields a value equal to the value parsed from the
original input. -/
theorem minify_json_roundtrip (s : List Char) (v : JValue) (h : jparse s = some v) :
    ∃ m, minify_json s = some m ∧ jparse m = some v := by
  refine ⟨jdumps v, ?_, ?_⟩
  · unfold minify_json
    rw [h]
    rfl
  · exact jparse_dumps v (jparse_wf h)

/-- Witness for C1 at the concrete document `[1, \x7b"a": null\x7d]`. -/
theorem minify_json_roundtrip_witness :
    ∃ m, minify_json ('[' :: '1' :: ',' :: ' ' :: '\x7b' :: '"' :: 'a' :: '"' :: ':' ::
        ' ' :: 'n' :: 'u' :: 'l' :: 'l' :: '\x7d' :: ']' :: []) = some m ∧
      jparse m = some (.jarr (.acons (.jnum 1)
        (.acons (.jobj (.ocons [97] .jnull .onil)) .anil))) :=
  minify_json_roundtrip _ _ (by decide)

/-! ## Encoding detection (`detect_encoding`, src/minify_files.py lines 9-31)

File content is a byte list.  `utf8Decode` and `utf16leDecode` are the
strict decoders of the two candidate codecs: they succeed exactly when the
whole byte sequence decodes without error, returning the decoded text.
UTF-8 follows RFC 3629 as CPython enforces it (no overlong forms, no
surrogates, at most U+10FFFF); UTF-16-LE combines surrogate pairs and
rejects lone surrogates and a trailing odd byte. -/

def utf8Decode : List Nat → Option (List Char)
  | [] => some []
  | b :: bs =>
    if b < 128 then (utf8Decode bs).map (fun l => Char.ofNat b :: l)
    else if 194 ≤ b ∧ b ≤ 223 then
      match bs with
      | b2 :: bs2 =>
        if 128 ≤ b2 ∧ b2 ≤ 191 then
          (utf8Decode bs2).map (fun l => Char.ofNat ((b - 192) * 64 + (b2 - 128)) :: l)
        else none
      | _ => none
    else if 224 ≤ b ∧ b ≤ 239 then
      match bs with
      | b2 :: b3 :: bs2 =>
        let lo2 := if b = 224 then 160 else 128
        let hi2 := if b = 237 then 159 else 191
        if (lo2 ≤ b2 ∧ b2 ≤ hi2) ∧ (128 ≤ b3 ∧ b3 ≤ 191) then
          (utf8Decode bs2).map
            (fun l => Char.ofNat ((b - 224) * 4096 + (b2 - 128) * 64 + (b3 - 128)) :: l)
        else none
      | _ => none
    else if 240 ≤ b ∧ b ≤ 244 then
      match bs with
      | b2 :: b3 :: b4 :: bs2 =>
        let lo2 := if b = 240 then 144 else 128
        let hi2 := if b = 244 then 143 else 191
        if (lo2 ≤ b2 ∧ b2 ≤ hi2) ∧ (128 ≤ b3 ∧ b3 ≤ 191) ∧ (128 ≤ b4 ∧ b4 ≤ 191) then
          (utf8Decode bs2).map
            (fun l => Char.ofNat
              ((b - 240) * 262144 + (b2 - 128) * 4096 + (b3 - 128) * 64 + (b4 - 128)) :: l)
        else none
      | _ => none
    else none

def utf16leDecode : List Nat → Option (List Char)
  | [] => some []
  | [_] => none
  | b0 :: b1 :: bs =>
    let u := b0 + 256 * b1
    if 55296 ≤ u ∧ u ≤ 56319 then
      match bs with
      | b2 :: b3 :: bs2 =>
        let u2 := b2 + 256 * b3
        if 56320 ≤ u2 ∧ u2 ≤ 57343 then
          (utf16leDecode bs2).map
            (fun l => Char.ofNat (65536 + (u - 55296) * 1024 + (u2 - 56320)) :: l)
        else none
      | _ => none
    else if 56320 ≤ u ∧ u ≤ 57343 then none
    else (utf16leDecode bs).map (fun l => Char.ofNat u :: l)

/-- The two encodings the tool recognizes. -/
inductive PyEnc where
  | utf8 : PyEnc
  | utf16le : PyEnc
deriving DecidableEq

def decodeE : PyEnc → List Nat → Option (List Char)
  | .utf8, bs => utf8Decode bs
  | .utf16le, bs => utf16leDecode bs

/-- The candidate loop of `detect_encoding`: first encoding of the list
under which the full content decodes. -/
def detectLoop : List PyEnc → List Nat → Option PyEnc
  | [], _ => none
  | e :: es, bs => if (decodeE e bs).isSome then some e else detectLoop es bs

/-- `detect_encoding` (src/minify_files.py lines 9-31): try `utf-8` then
`utf-16-le`, return the first that decodes; on no match fall back to
`utf-8` with a warning (the Boolean records that the warning was printed). -/
def detect_encoding (bs : List Nat) : PyEnc × Bool :=
  match detectLoop [.utf8, .utf16le] bs with
  | some e => (e, false)
  | none => (.utf8, true)

/-- C7: the detector returns UTF-8 without warning whenever the whole
content is valid UTF-8; otherwise UTF-16-LE without warning whenever the
whole content is valid UTF-16-LE; and UTF-8 with a warning when neither
decodes. -/
theorem detect_encoding_spec (bs : List Nat) :
    ((utf8Decode bs).isSome → detect_encoding bs = (.utf8, false)) ∧
    (utf8Decode bs = none → (utf16leDecode bs).isSome →
      detect_encoding bs = (.utf16le, false)) ∧
    (utf8Decode bs = none → utf16leDecode bs = none →
      detect_encoding bs = (.utf8, true)) := by
  refine ⟨?_, ?_, ?_⟩
  · intro h
    simp [detect_encoding, detectLoop, decodeE, h]
  · intro h8 h16
    simp [detect_encoding, detectLoop, decodeE, h8, h16]
  · intro h8 h16
    simp [detect_encoding, detectLoop, decodeE, h8, h16]

/-- Witness for C7 on the bytes `FF FE`: invalid UTF-8, valid UTF-16-LE. -/
theorem detect_encoding_spec_witness :
    detect_encoding [255, 254] = (.utf16le, false) :=
  (detect_encoding_spec [255, 254]).2.1 (by decide) (by decide)

/-! ## Filesystem model and the per-file pipeline (`process_file`)

A path is a list of directory components plus a file name (the shape
`os.path.dirname`/`basename`/`join` manipulate); the filesystem is an
association list of paths to byte contents plus the set of directories.
All names are lists of characters. -/

structure FPath where
  dir : List (List Char)
  name : List Char
deriving DecidableEq

structure FS where
  files : List (FPath × List Nat)
  dirs : List (List (List Char))
deriving DecidableEq

def lookupL : List (FPath × List Nat) → FPath → Option (List Nat)
  | [], _ => none
  | e :: es, p => if e.1 = p then some e.2 else lookupL es p

def lookupF (fs : FS) (p : FPath) : Option (List Nat) := lookupL fs.files p

/-- Store `c` at `p`: overwrite an existing entry, else append. -/
def setF : List (FPath × List Nat) → FPath → List Nat → List (FPath × List Nat)
  | [], p, c => [(p, c)]
  | e :: es, p, c => if e.1 = p then (p, c) :: es else e :: setF es p c

def writeF (fs : FS) (p : FPath) (c : List Nat) : FS := ⟨setF fs.files p c, fs.dirs⟩

/-- `os.makedirs(..., exist_ok=True)`: an existing directory is kept. -/
def mkdirF (fs : FS) (d : List (List Char)) : FS :=
  if d ∈ fs.dirs then fs else ⟨fs.files, d :: fs.dirs⟩

def backupComp : List Char := ['b', 'a', 'c', 'k', 'u', 'p']
def bakExt : List Char := ['.', 'b', 'a', 'k']
def skysheetExt : List Char := ['.', 's', 'k', 'y', 's', 'h', 'e', 'e', 't']
def jsonExt : List Char := ['.', 'j', 's', 'o', 'n']
def txtExt : List Char := ['.', 't', 'x', 't']

/-- ASCII lowering, the fragment of `str.lower` relevant to the ASCII
extension comparisons (non-ASCII letters never lower to ASCII letters of
the compared extensions except the exotic Kelvin sign, out of scope). -/
def toLowerC (c : Char) : Char :=
  if 65 ≤ c.toNat ∧ c.toNat ≤ 90 then Char.ofNat (c.toNat + 32) else c

/-- `file.lower().endswith(('.json', '.txt', '.skysheet'))`. -/
def supportedName (name : List Char) : Bool :=
  jsonExt.isSuffixOf (name.map toLowerC) || txtExt.isSuffixOf (name.map toLowerC)
    || skysheetExt.isSuffixOf (name.map toLowerC)

/-- On the reversed name: the segment up to and including the first dot
(the reversed extension) and the remainder (the reversed stem); `none`
when the name holds no dot. -/
def splitAtDot : List Char → Option (List Char × List Char)
  | [] => none
  | c :: cs =>
    if c = '.' then some ([c], cs)
    else (splitAtDot cs).map (fun q => (c :: q.1, q.2))

/-- `os.path.splitext` on a bare file name: split at the last dot, except
that a name whose characters before that dot are all dots (a leading-dot
file such as `.json`) has no extension. -/
def splitextName (name : List Char) : List Char × List Char :=
  match splitAtDot name.reverse with
  | none => (name, [])
  | some (extRev, stemRev) =>
    if stemRev.all (fun c => c = '.') then (name, [])
    else (stemRev.reverse, extRev.reverse)

/-- Universal-newline translation applied by text-mode reading:
`\r\n` and lone `\r` become `\n`. -/
def nlTrans : List Char → List Char
  | [] => []
  | '\r' :: '\n' :: rest => '\n' :: nlTrans rest
  | '\r' :: rest => '\n' :: nlTrans rest
  | c :: rest => c :: nlTrans rest

def utf8Encode : List Char → List Nat
  | [] => []
  | c :: cs =>
    (if c.toNat < 128 then [c.toNat]
     else if c.toNat < 2048 then [192 + c.toNat / 64, 128 + c.toNat % 64]
     else if c.toNat < 65536 then
       [224 + c.toNat / 4096, 128 + (c.toNat / 64) % 64, 128 + c.toNat % 64]
     else
       [240 + c.toNat / 262144, 128 + (c.toNat / 4096) % 64,
        128 + (c.toNat / 64) % 64, 128 + c.toNat % 64]) ++ utf8Encode cs

def utf16leEncode : List Char → List Nat
  | [] => []
  | c :: cs =>
    (if c.toNat < 65536 then [c.toNat % 256, c.toNat / 256]
     else
       [(55296 + (c.toNat - 65536) / 1024) % 256, (55296 + (c.toNat - 65536) / 1024) / 256,
        (56320 + (c.toNat - 65536) % 1024) % 256,
        (56320 + (c.toNat - 65536) % 1024) / 256]) ++ utf16leEncode cs

def encodeE : PyEnc → List Char → List Nat
  | .utf8, s => utf8Encode s
  | .utf16le, s => utf16leEncode s

/-- The observable steps of the per-file pipeline, in execution order. -/
inductive PStep where
  | checkExists : PStep
  | detectEnc : PStep
  | makeBackupDir : PStep
  | copyBackup : PStep
  | readContent : PStep
  | minifyStep : PStep
  | writeOutput : PStep
deriving DecidableEq

def backupDirOf (p : FPath) : List (List Char) := p.dir ++ [backupComp]

def backupPathOf (p : FPath) : FPath := ⟨backupDirOf p, p.name ++ bakExt⟩

def outPathOf (p : FPath) : FPath := ⟨p.dir, (splitextName p.name).1 ++ skysheetExt⟩

/-- `process_file` (src/minify_files.py lines 96-160).  Returns the new
filesystem, the success flag, and the trace of pipeline steps reached.
A failed decode models the `UnicodeDecodeError` of `read_file` caught by
the outer handler (the fallback-encoding read fails the same way).
Minified output never contains a newline, so the write-side newline
translation of text mode is the identity on it. -/
def process_file (fs : FS) (p : FPath) : FS × Bool × List PStep :=
  match lookupF fs p with
  | none => (fs, false, [.checkExists])
  | some bytes =>
    let enc := (detect_encoding bytes).1
    let fs2 := writeF (mkdirF fs (backupDirOf p)) (backupPathOf p) bytes
    match decodeE enc bytes with
    | none =>
      (fs2, false, [.checkExists, .detectEnc, .makeBackupDir, .copyBackup, .readContent])
    | some raw =>
      match
        (if (splitextName p.name).2.map toLowerC = jsonExt then minify_json (nlTrans raw)
         else some (minify_text (nlTrans raw))) with
      | none =>
        (fs2, false,
         [.checkExists, .detectEnc, .makeBackupDir, .copyBackup, .readContent, .minifyStep])
      | some out =>
        (writeF fs2 (outPathOf p) (encodeE enc out), true,
         [.checkExists, .detectEnc, .makeBackupDir, .copyBackup, .readContent, .minifyStep,
          .writeOutput])

theorem lookupL_setF_self : ∀ (es : List (FPath × List Nat)) (p : FPath) (c : List Nat),
    lookupL (setF es p c) p = some c := by
  intro es p c
  induction es with
  | nil => simp [setF, lookupL]
  | cons e es ih =>
    by_cases h : e.1 = p
    · simp [setF, h, lookupL]
    · simp [setF, h, lookupL, ih]

theorem lookupL_setF_ne : ∀ (es : List (FPath × List Nat)) (p : FPath) (c : List Nat)
    (q : FPath), q ≠ p → lookupL (setF es p c) q = lookupL es q := by
  intro es p c q hne
  induction es with
  | nil => simp [setF, lookupL, Ne.symm hne]
  | cons e es ih =>
    by_cases h : e.1 = p
    · simp [setF, h, lookupL, Ne.symm hne]
    · simp only [setF, if_neg h, lookupL, ih]

theorem lookupF_writeF_self (fs : FS) (p : FPath) (c : List Nat) :
    lookupF (writeF fs p c) p = some c :=
  lookupL_setF_self fs.files p c

theorem lookupF_writeF_ne (fs : FS) (p : FPath) (c : List Nat) (q : FPath) (h : q ≠ p) :
    lookupF (writeF fs p c) q = lookupF fs q :=
  lookupL_setF_ne fs.files p c q h

theorem lookupF_mkdirF (fs : FS) (d : List (List Char)) (q : FPath) :
    lookupF (mkdirF fs d) q = lookupF fs q := by
  unfold mkdirF
  split <;> rfl

theorem mkdirF_dirs (fs : FS) (d : List (List Char)) :
    ∀ d2, d2 ∈ (mkdirF fs d).dirs → d2 ∈ fs.dirs ∨ d2 = d := by
  intro d2 h
  unfold mkdirF at h
  split at h
  · exact Or.inl h
  · dsimp only at h
    rcases List.mem_cons.mp h with h | h
    · exact Or.inr h
    · exact Or.inl h

theorem append_backup_ne (d : List (List Char)) : d ++ [backupComp] ≠ d := by
  intro h
  have h2 := congrArg List.length h
  simp at h2

theorem backup_ne_out (p : FPath) : backupPathOf p ≠ outPathOf p := by
  intro h
  exact append_backup_ne p.dir (congrArg FPath.dir h)

theorem self_ne_backup (p : FPath) : p ≠ backupPathOf p := by
  intro h
  exact append_backup_ne p.dir (congrArg FPath.dir h).symm

/-- C3: once the input exists as a file, every outcome of the pipeline leaves
a backup at `<dir>/backup/<name>.bak` holding exactly the pre-processing
bytes, and in the step trace the backup copy precedes the content read, the
minification and the output write. -/
theorem process_file_backup (fs : FS) (p : FPath) (bytes : List Nat)
    (h : lookupF fs p = some bytes) :
    lookupF (process_file fs p).1 (backupPathOf p) = some bytes ∧
    PStep.copyBackup ∈ (process_file fs p).2.2.takeWhile
      (fun s => decide (s ≠ PStep.readContent)) ∧
    PStep.copyBackup ∈ (process_file fs p).2.2.takeWhile
      (fun s => decide (s ≠ PStep.minifyStep)) ∧
    PStep.copyBackup ∈ (process_file fs p).2.2.takeWhile
      (fun s => decide (s ≠ PStep.writeOutput)) := by
  unfold process_file
  rw [h]
  dsimp only
  cases hdec : decodeE (detect_encoding bytes).1 bytes with
  | none =>
    dsimp only
    exact ⟨lookupF_writeF_self _ _ _, by decide, by decide, by decide⟩
  | some raw =>
    dsimp only
    cases hmin : (if (splitextName p.name).2.map toLowerC = jsonExt
        then minify_json (nlTrans raw) else some (minify_text (nlTrans raw))) with
    | none =>
      dsimp only
      exact ⟨lookupF_writeF_self _ _ _, by decide, by decide, by decide⟩
    | some out =>
      dsimp only
      refine ⟨?_, by decide, by decide, by decide⟩
      rw [lookupF_writeF_ne _ _ _ _ (backup_ne_out p)]
      exact lookupF_writeF_self _ _ _

/-- Witness for C3 on a one-file filesystem. -/
theorem process_file_backup_witness :
    lookupF (process_file ⟨[(⟨[], ['a']⟩, [65])], []⟩ ⟨[], ['a']⟩).1
      (backupPathOf ⟨[], ['a']⟩) = some [65] :=
  (process_file_backup ⟨[(⟨[], ['a']⟩, [65])], []⟩ ⟨[], ['a']⟩ [65] (by decide)).1

/-- C4: when the content of a `.json` file fails to parse, `minify_json`
returns `None` (the failure signal), the pipeline returns failure, and no
output file is written: apart from the backup the filesystem is unchanged,
in particular the output path is untouched. -/
theorem process_file_bad_json (fs : FS) (p : FPath) (bytes : List Nat) (raw : List Char)
    (h : lookupF fs p = some bytes)
    (hdec : decodeE (detect_encoding bytes).1 bytes = some raw)
    (hext : (splitextName p.name).2.map toLowerC = jsonExt)
    (hbad : jparse (nlTrans raw) = none) :
    minify_json (nlTrans raw) = none ∧
    process_file fs p =
      (writeF (mkdirF fs (backupDirOf p)) (backupPathOf p) bytes, false,
       [.checkExists, .detectEnc, .makeBackupDir, .copyBackup, .readContent,
        .minifyStep]) ∧
    lookupF (process_file fs p).1 (outPathOf p) = lookupF fs (outPathOf p) ∧
    (∀ q, q ≠ backupPathOf p → lookupF (process_file fs p).1 q = lookupF fs q) := by
  have hmj : minify_json (nlTrans raw) = none := by
    unfold minify_json
    rw [hbad]
    rfl
  have hpf : process_file fs p =
      (writeF (mkdirF fs (backupDirOf p)) (backupPathOf p) bytes, false,
       [.checkExists, .detectEnc, .makeBackupDir, .copyBackup, .readContent,
        .minifyStep]) := by
    unfold process_file
    rw [h]
    dsimp only
    rw [hdec]
    dsimp only
    rw [if_pos hext, hmj]
  refine ⟨hmj, hpf, ?_, ?_⟩
  · rw [hpf]
    dsimp only
    rw [lookupF_writeF_ne _ _ _ _ (Ne.symm (backup_ne_out p)), lookupF_mkdirF]
  · intro q hq
    rw [hpf]
    dsimp only
    rw [lookupF_writeF_ne _ _ _ _ hq, lookupF_mkdirF]

/-- Witness for C4 on the malformed document of the specification. -/
theorem process_file_bad_json_witness :
    minify_json (nlTrans ['\x7b', '"', 'a', '"', ':', ' ', '\x7d']) = none :=
  (process_file_bad_json
    ⟨[(⟨[], ['a', '.', 'j', 's', 'o', 'n']⟩, [123, 34, 97, 34, 58, 32, 125])], []⟩
    ⟨[], ['a', '.', 'j', 's', 'o', 'n']⟩ [123, 34, 97, 34, 58, 32, 125]
    ['\x7b', '"', 'a', '"', ':', ' ', '\x7d']
    (by decide) (by decide) (by decide) (by decide)).1

/-- C9: a file named exactly `.json` (its characters are those of `jsonExt`)
is selected by the walker's suffix test, but `os.path.splitext` gives it an
empty extension, so the pipeline runs the text minifier and writes the
output to `.json.skysheet`. -/
theorem dotfile_json_dispatch (fs : FS) (d : List (List Char)) (bytes : List Nat)
    (raw : List Char)
    (h : lookupF fs ⟨d, jsonExt⟩ = some bytes)
    (hdec : decodeE (detect_encoding bytes).1 bytes = some raw) :
    supportedName jsonExt = true ∧
    (splitextName jsonExt).2 = [] ∧
    process_file fs ⟨d, jsonExt⟩ =
      (writeF (writeF (mkdirF fs (d ++ [backupComp]))
          ⟨d ++ [backupComp], jsonExt ++ bakExt⟩ bytes)
        ⟨d, jsonExt ++ skysheetExt⟩
        (encodeE (detect_encoding bytes).1 (minify_text (nlTrans raw))),
       true,
       [.checkExists, .detectEnc, .makeBackupDir, .copyBackup, .readContent,
        .minifyStep, .writeOutput]) := by
  refine ⟨by decide, by decide, ?_⟩
  unfold process_file
  rw [h]
  dsimp only
  rw [hdec]
  dsimp only
  rw [if_neg (by decide)]
  dsimp only
  have hout : outPathOf ⟨d, jsonExt⟩ = ⟨d, jsonExt ++ skysheetExt⟩ := by
    unfold outPathOf
    dsimp only
    rw [show (splitextName jsonExt).1 = jsonExt from by decide]
  rw [hout]
  rfl

/-- Witness for C9: the name `.json` passes the walker's suffix test. -/
theorem dotfile_json_dispatch_witness : supportedName jsonExt = true :=
  (dotfile_json_dispatch ⟨[(⟨[], jsonExt⟩, [107])], []⟩ [] [107] ['k']
    (by decide) (by decide)).1

theorem splitAtDot_append : ∀ (r e s : List Char),
    splitAtDot r = some (e, s) → e ++ s = r := by
  intro r
  induction r with
  | nil => intro e s h; exact absurd h (by simp [splitAtDot])
  | cons c cs ih =>
    intro e s h
    unfold splitAtDot at h
    split_ifs at h with hc
    · injection h with h2
      injection h2 with h3 h4
      rw [← h3, ← h4, hc]
      rfl
    · cases hq : splitAtDot cs with
      | none => rw [hq] at h; exact absurd h (by simp)
      | some q =>
        rw [hq] at h
        dsimp only [Option.map] at h
        injection h with h2
        injection h2 with h3 h4
        rw [← h3, ← h4, List.cons_append, ih q.1 q.2 (by rw [hq])]

theorem splitext_append (name : List Char) :
    (splitextName name).1 ++ (splitextName name).2 = name := by
  unfold splitextName
  cases hs : splitAtDot name.reverse with
  | none => simp
  | some q =>
    dsimp only
    split_ifs
    · simp
    · dsimp only
      rw [← List.reverse_append, splitAtDot_append _ _ _ (by rw [hs]),
        List.reverse_reverse]

theorem splitAtDot_sky (X : List Char) :
    splitAtDot (skysheetExt.reverse ++ X) = some (skysheetExt.reverse, X) := by
  show splitAtDot ('t' :: 'e' :: 'e' :: 'h' :: 's' :: 'y' :: 'k' :: 's' :: '.' :: X) = _
  simp [splitAtDot, skysheetExt]

theorem splitext_sky_ext (name stem : List Char) (h : name = stem ++ skysheetExt) :
    (splitextName name).2 = skysheetExt ∨ (splitextName name).1 = name := by
  subst h
  unfold splitextName
  rw [List.reverse_append, splitAtDot_sky]
  dsimp only
  split_ifs
  · exact Or.inr rfl
  · left
    dsimp only
    rw [List.reverse_reverse]

/-- A path equals its computed output path exactly when its extension is
(case-sensitively) `.skysheet`. -/
theorem out_eq_iff (p : FPath) : p = outPathOf p ↔ (splitextName p.name).2 = skysheetExt := by
  constructor
  · intro h
    have hn : p.name = (splitextName p.name).1 ++ skysheetExt := congrArg FPath.name h
    rcases splitext_sky_ext p.name _ hn with h2 | h2
    · exact h2
    · rw [h2] at hn
      have h3 := congrArg List.length hn
      simp [skysheetExt] at h3
  · intro h
    have hn : p.name = (splitextName p.name).1 ++ skysheetExt := by
      conv_lhs => rw [← splitext_append p.name]
      rw [h]
    cases p with
    | mk d n =>
      unfold outPathOf
      dsimp only at hn ⊢
      rw [← hn]

/-- C10: for a file whose extension is not exactly `.skysheet` — equivalently,
whose path differs from the computed output path — the pipeline leaves the
input file's content untouched, writes no file other than the backup and the
output, and creates no directory other than the `backup` subdirectory. -/
theorem process_file_frame (fs : FS) (p : FPath)
    (h : (splitextName p.name).2 ≠ skysheetExt) :
    p ≠ outPathOf p ∧
    lookupF (process_file fs p).1 p = lookupF fs p ∧
    (∀ q, q ≠ backupPathOf p → q ≠ outPathOf p →
      lookupF (process_file fs p).1 q = lookupF fs q) ∧
    (∀ d2, d2 ∈ (process_file fs p).1.dirs → d2 ∈ fs.dirs ∨ d2 = backupDirOf p) := by
  have hne : p ≠ outPathOf p := fun he => h ((out_eq_iff p).mp he)
  have hframe : ∀ q, q ≠ backupPathOf p → q ≠ outPathOf p →
      lookupF (process_file fs p).1 q = lookupF fs q := by
    intro q hq1 hq2
    unfold process_file
    cases hl : lookupF fs p with
    | none => rfl
    | some bytes =>
      dsimp only
      cases hdec : decodeE (detect_encoding bytes).1 bytes with
      | none =>
        dsimp only
        rw [lookupF_writeF_ne _ _ _ _ hq1, lookupF_mkdirF]
      | some raw =>
        dsimp only
        cases hmin : (if (splitextName p.name).2.map toLowerC = jsonExt
            then minify_json (nlTrans raw) else some (minify_text (nlTrans raw))) with
        | none =>
          dsimp only
          rw [lookupF_writeF_ne _ _ _ _ hq1, lookupF_mkdirF]
        | some out =>
          dsimp only
          rw [lookupF_writeF_ne _ _ _ _ hq2, lookupF_writeF_ne _ _ _ _ hq1, lookupF_mkdirF]
  have hdirs : ∀ d2, d2 ∈ (process_file fs p).1.dirs → d2 ∈ fs.dirs ∨ d2 = backupDirOf p := by
    intro d2
    unfold process_file
    cases hl : lookupF fs p with
    | none => exact fun hd => Or.inl hd
    | some bytes =>
      dsimp only
      cases hdec : decodeE (detect_encoding bytes).1 bytes with
      | none =>
        dsimp only [writeF]
        exact mkdirF_dirs fs (backupDirOf p) d2
      | some raw =>
        dsimp only
        cases hmin : (if (splitextName p.name).2.map toLowerC = jsonExt
            then minify_json (nlTrans raw) else some (minify_text (nlTrans raw))) with
        | none =>
          dsimp only [writeF]
          exact mkdirF_dirs fs (backupDirOf p) d2
        | some out =>
          dsimp only [writeF]
          exact mkdirF_dirs fs (backupDirOf p) d2
  exact ⟨hne, hframe p (self_ne_backup p) hne, hframe, hdirs⟩

/-- Witness for C10 on the file `a.txt`. -/
theorem process_file_frame_witness :
    (⟨[], ['a', '.', 't', 'x', 't']⟩ : FPath) ≠ outPathOf ⟨[], ['a', '.', 't', 'x', 't']⟩ :=
  (process_file_frame ⟨[], []⟩ ⟨[], ['a', '.', 't', 'x', 't']⟩ (by decide)).1

/-! ## Directory walker (`process_directory`, src/minify_files.py lines 162-187)

The walk operates on a snapshot tree of the directory taken at the start:
`os.walk` lists each directory before its files are processed, and the
pipeline only ever creates entries (the `backup` subdirectory, `.bak` and
`.skysheet` files) in directories whose listing was already taken, so the
snapshot walk is faithful.  The filesystem state is threaded through the
per-file runs exactly as the code does. -/

mutual
inductive FTree where
  | node : List (List Char) → FKids → FTree
inductive FKids where
  | knil : FKids
  | kcons : List Char → FTree → FKids → FKids
end

/-- Process the supported files of one directory listing, counting
successes and failures. -/
def walkFiles (d : List (List Char)) : List (List Char) → FS → FS × Nat × Nat
  | [], fs => (fs, 0, 0)
  | name :: names, fs =>
    if supportedName name then
      let r := process_file fs ⟨d, name⟩
      let rest := walkFiles d names r.1
      if r.2.1 then (rest.1, rest.2.1 + 1, rest.2.2) else (rest.1, rest.2.1, rest.2.2 + 1)
    else walkFiles d names fs

mutual
/-- The `os.walk` loop over the snapshot tree rooted at `d`. -/
def walkTree (d : List (List Char)) : FTree → FS → FS × Nat × Nat
  | .node files kids, fs =>
    let r1 := walkFiles d files fs
    let r2 := walkKids d kids r1.1
    (r2.1, r1.2.1 + r2.2.1, r1.2.2 + r2.2.2)
  termination_by structural t => t
def walkKids (d : List (List Char)) : FKids → FS → FS × Nat × Nat
  | .knil, fs => (fs, 0, 0)
  | .kcons name t rest, fs =>
    let r1 := walkTree (d ++ [name]) t fs
    let r2 := walkKids d rest r1.1
    (r2.1, r1.2.1 + r2.2.1, r1.2.2 + r2.2.2)
  termination_by structural k => k
end

/-- `process_directory` (src/minify_files.py lines 162-187). -/
def process_directory (d : List (List Char)) (t : FTree) (fs : FS) : FS × Nat × Nat :=
  walkTree d t fs

mutual
/-- All file paths of the snapshot tree, in walk order. -/
def allFiles (d : List (List Char)) : FTree → List FPath
  | .node files kids => files.map (fun n => (⟨d, n⟩ : FPath)) ++ allFilesK d kids
  termination_by structural t => t
def allFilesK (d : List (List Char)) : FKids → List FPath
  | .knil => []
  | .kcons name t rest => allFiles (d ++ [name]) t ++ allFilesK d rest
  termination_by structural k => k
end

/-- The specification-side reference: run the File Processor on a given
list of files, one after the other, counting successes and failures. -/
def runAll : List FPath → FS → FS × Nat × Nat
  | [], fs => (fs, 0, 0)
  | p :: ps, fs =>
    let r := process_file fs p
    let rest := runAll ps r.1
    if r.2.1 then (rest.1, rest.2.1 + 1, rest.2.2) else (rest.1, rest.2.1, rest.2.2 + 1)

theorem runAll_append : ∀ (ps qs : List FPath) (fs : FS),
    runAll (ps ++ qs) fs =
      ((runAll qs (runAll ps fs).1).1,
       (runAll ps fs).2.1 + (runAll qs (runAll ps fs).1).2.1,
       (runAll ps fs).2.2 + (runAll qs (runAll ps fs).1).2.2) := by
  intro ps
  induction ps with
  | nil => intro qs fs; simp [runAll]
  | cons p ps ih =>
    intro qs fs
    simp only [List.cons_append, runAll]
    cases hb : (process_file fs p).2.1 <;> simp [hb, ih, Nat.add_assoc] <;> omega

theorem runAll_counts : ∀ (ps : List FPath) (fs : FS),
    (runAll ps fs).2.1 + (runAll ps fs).2.2 = ps.length := by
  intro ps
  induction ps with
  | nil => intro fs; rfl
  | cons p ps ih =>
    intro fs
    simp only [runAll]
    cases hb : (process_file fs p).2.1 <;> simp [hb] <;> rw [← ih (process_file fs p).1] <;> omega

theorem filter_map_name (d : List (List Char)) : ∀ names : List (List Char),
    (names.map (fun n => (⟨d, n⟩ : FPath))).filter (fun p => supportedName p.name) =
      (names.filter supportedName).map (fun n => (⟨d, n⟩ : FPath)) := by
  intro names
  induction names with
  | nil => rfl
  | cons n names ih =>
    cases hs : supportedName n <;>
      simp [List.filter_cons, hs, ih]

theorem walkFiles_eq (d : List (List Char)) : ∀ (names : List (List Char)) (fs : FS),
    walkFiles d names fs =
      runAll ((names.filter supportedName).map (fun n => (⟨d, n⟩ : FPath))) fs := by
  intro names
  induction names with
  | nil => intro fs; rfl
  | cons n names ih =>
    intro fs
    cases hs : supportedName n with
    | false => simp [walkFiles, hs, List.filter_cons, ih]
    | true =>
      simp only [walkFiles, hs, if_true, List.filter_cons]
      rw [ih]
      simp [runAll]

mutual
theorem walkTree_eq : ∀ (t : FTree) (d : List (List Char)) (fs : FS),
    walkTree d t fs =
      runAll ((allFiles d t).filter (fun p => supportedName p.name)) fs
  | .node files kids => by
      intro d fs
      simp only [walkTree, allFiles, List.filter_append]
      rw [runAll_append, walkFiles_eq d files fs, filter_map_name,
        walkKids_eq kids d _]
  termination_by structural t => t
theorem walkKids_eq : ∀ (k : FKids) (d : List (List Char)) (fs : FS),
    walkKids d k fs =
      runAll ((allFilesK d k).filter (fun p => supportedName p.name)) fs
  | .knil => by
      intro d fs
      rfl
  | .kcons name t rest => by
      intro d fs
      simp only [walkKids, allFilesK, List.filter_append]
      rw [runAll_append, walkTree_eq t (d ++ [name]) fs, walkKids_eq rest d _]
  termination_by structural k => k
end

/-- C8: the Directory Walker equals running the File Processor on exactly
the files of the tree whose name passes the case-insensitive
`.json`/`.txt`/`.skysheet` suffix test, in walk order, threading the
filesystem through; and its two counters always sum to the number of
selected files, so every selected file is counted as a success or a
failure and no failure aborts the walk. -/
theorem process_directory_spec (d : List (List Char)) (t : FTree) (fs : FS) :
    process_directory d t fs =
      runAll ((allFiles d t).filter (fun p => supportedName p.name)) fs ∧
    (process_directory d t fs).2.1 + (process_directory d t fs).2.2 =
      ((allFiles d t).filter (fun p => supportedName p.name)).length := by
  have h := walkTree_eq t d fs
  refine ⟨h, ?_⟩
  show (walkTree d t fs).2.1 + (walkTree d t fs).2.2 = _
  rw [h]
  exact runAll_counts _ _
